import Mathlib

set_option maxRecDepth 4000

/-!
Shallow embedding of the PeerSight output-reconstruction pipeline
(`src/peersight/parser.py`, `src/peersight/utils.py`,
`src/peersight/main.py`, constants from `src/peersight/prompts.py`).

Python strings are modelled as `List Char`; `None`-returning functions
return `Option`.  Each definition mirrors one Python function or
sub-expression of the source; comments cite the source location.
-/

namespace PeerSight

/-! ## Python string primitives -/

/-- Python strings, modelled as lists of characters. -/
abbrev PyStr := List Char

/-- The whitespace characters recognised by Python's `str.strip()` /
`str.isspace()` for the ASCII range: space, tab, newline, carriage
return, vertical tab, form feed. -/
def pyWhitespace (c : Char) : Bool :=
  c = ' ' || c = '\t' || c = '\n' || c = '\r' || c = Char.ofNat 11 || c = Char.ofNat 12

/-- Leading-whitespace removal (`str.lstrip()`). -/
def pyStripLeft (s : PyStr) : PyStr := s.dropWhile pyWhitespace

/-- Trailing-whitespace removal (`str.rstrip()`). -/
def pyStripRight (s : PyStr) : PyStr := (s.reverse.dropWhile pyWhitespace).reverse

/-- Python's `str.strip()`: remove leading and trailing whitespace. -/
def pyStrip (s : PyStr) : PyStr := pyStripRight (pyStripLeft s)

/-- Python's `str.strip(chars)`: remove the given characters from both
ends (used by the parser as `.strip('.?! ')`). -/
def pyStripChars (cs : List Char) (s : PyStr) : PyStr :=
  ((s.dropWhile (fun c => cs.contains c)).reverse.dropWhile
    (fun c => cs.contains c)).reverse

/-- Python's `str.lower()` restricted to ASCII (all strings handled by
the pipeline's comparisons are ASCII). -/
def pyLower (s : PyStr) : PyStr := s.map Char.toLower

/-- Auxiliary scan for `str.find`: first index, counted from `i`, where
`pat` is a prefix of the remaining text. -/
def findSubAux (pat : PyStr) : PyStr → Nat → Option Nat
  | s, i =>
    if pat.isPrefixOf s then some i
    else
      match s with
      | [] => none
      | _ :: t => findSubAux pat t (i + 1)

/-- Python's `str.find(pat)` as an `Option`: index of the first
occurrence of `pat` in `s` (`none` models the `-1` result). -/
def findSub (s pat : PyStr) : Option Nat := findSubAux pat s 0

/-- Substring containment (`pat in s`). -/
def containsSub (s pat : PyStr) : Bool := (findSub s pat).isSome

/-! ## Constants from `prompts.py` -/

/-- `prompts.REVIEW_SECTION_SUMMARY`. -/
def REVIEW_SECTION_SUMMARY : PyStr := "## Summary".toList

/-- `prompts.REVIEW_SECTION_STRENGTHS`. -/
def REVIEW_SECTION_STRENGTHS : PyStr := "## Strengths".toList

/-- `prompts.REVIEW_SECTION_WEAKNESSES`. -/
def REVIEW_SECTION_WEAKNESSES : PyStr := "## Weaknesses / Areas for Improvement".toList

/-- `prompts.REVIEW_SECTION_RECOMMENDATION`. -/
def REVIEW_SECTION_RECOMMENDATION : PyStr := "## Recommendation".toList

/-- `prompts.REVIEW_RECOMMENDATION_OPTIONS`. -/
def REVIEW_RECOMMENDATION_OPTIONS : List PyStr :=
  ["Accept".toList, "Minor Revision".toList, "Major Revision".toList, "Reject".toList]

/-! ## `re.split(r"^\s*(##\s+.*)", text, flags=re.MULTILINE)`
(parser.py lines 35-42)

A match of the pattern can only start at a line start (because of the
MULTILINE `^`).  At a line start, `\s*` must consume the maximal
whitespace run (the following literal `#` is not whitespace), then the
captured group needs `##`, at least one further whitespace character
(`\s+`, again a maximal run by the same argument, and it may span
newlines), and `.*` extends to the end of that line.  These Python
semantics were the basis of `matchHeaderAt` below. -/

/-- Attempt to match `^\s*(##\s+.*)` at the start of `s` (which the
caller guarantees to be a line start).  On success, returns the captured
group together with the total number of characters consumed by the whole
match.  The `\s*` run is `s.takeWhile pyWhitespace`, so the text after
it is `s.dropWhile pyWhitespace` (dropping the run's length is the same
as `dropWhile`); the `\s+` run after `##` is `r2.takeWhile pyWhitespace`
(required non-empty), the text after it is `r2.dropWhile pyWhitespace`,
and `.*` takes up to the next newline. -/
def matchHeaderAt (s : PyStr) : Option (PyStr × Nat) :=
  match s.dropWhile pyWhitespace with
  | '#' :: '#' :: r2 =>
    if r2.takeWhile pyWhitespace = [] then none
    else
      some ('#' :: '#' :: (r2.takeWhile pyWhitespace ++
          (r2.dropWhile pyWhitespace).takeWhile (fun c => c ≠ '\n')),
        (s.takeWhile pyWhitespace).length + 2 + (r2.takeWhile pyWhitespace).length +
          ((r2.dropWhile pyWhitespace).takeWhile (fun c => c ≠ '\n')).length)
  | _ => none

/-- One pass of the `re.split` scanner.  `atLS` records whether the
current position is a line start (position 0, or just after a `'\n'`);
`acc` accumulates (reversed) the text since the last match.  Each step
consumes at least one character, so `s.length + 1` units of fuel always
suffice. -/
def splitLoop : Nat → PyStr → Bool → PyStr → List PyStr
  | 0, s, _, acc => [acc.reverse ++ s]
  | fuel + 1, s, atLS, acc =>
    match (if atLS then matchHeaderAt s else none) with
    | some (cap, len) => acc.reverse :: cap :: splitLoop fuel (s.drop len) false []
    | none =>
      match s with
      | [] => [acc.reverse]
      | c :: t => splitLoop fuel t (c = '\n') (c :: acc)

/-- The parser's `re.split(r"^\s*(##\s+.*)", review_text, flags=re.MULTILINE)`. -/
def pySplitHeaders (s : PyStr) : List PyStr := splitLoop (s.length + 1) s true []

/-! ## `parser.py` -/

/-- The dictionary produced by `parse_review_text` (its four fixed keys). -/
structure ReviewDict where
  summary : PyStr
  strengths : PyStr
  weaknesses : PyStr
  recommendation : PyStr
deriving DecidableEq, Repr

/-- The four known section keys. -/
inductive SectionKey where
  | summary | strengths | weaknesses | recommendation
deriving DecidableEq, Repr

/-- `parser._header_to_key`: maps known header text to dictionary keys. -/
def headerToKey (header : PyStr) : Option SectionKey :=
  if header = REVIEW_SECTION_SUMMARY then some .summary
  else if header = REVIEW_SECTION_STRENGTHS then some .strengths
  else if header = REVIEW_SECTION_WEAKNESSES then some .weaknesses
  else if header = REVIEW_SECTION_RECOMMENDATION then some .recommendation
  else none

/-- Append accumulated text to the named key (`parsed_data[key] += ...`). -/
def addToKey (d : ReviewDict) (k : SectionKey) (t : PyStr) : ReviewDict :=
  match k with
  | .summary => { d with summary := d.summary ++ t }
  | .strengths => { d with strengths := d.strengths ++ t }
  | .weaknesses => { d with weaknesses := d.weaknesses ++ t }
  | .recommendation => { d with recommendation := d.recommendation ++ t }

/-- The loop's `re.match(any_header_pattern, part.strip()) is not None`
(parser.py line 65).  `re.match` anchors at position 0, which is trivially
a line start, so it coincides with `matchHeaderAt` on the stripped part. -/
def isHeaderPart (p : PyStr) : Bool := (matchHeaderAt (pyStrip p)).isSome

/-- The part-processing loop of `parse_review_text` (parser.py lines
62-78): known headers switch the current section, unknown headers clear
it, content parts are stripped and appended (plus a `'\n'`) to the
current section when one is active, and dropped otherwise. -/
def processParts : List PyStr → Option SectionKey → ReviewDict → ReviewDict
  | [], _, d => d
  | p :: rest, cur, d =>
    if isHeaderPart p then
      match headerToKey (pyStrip p) with
      | some k => processParts rest (some k) d
      | none => processParts rest none d
    else
      match cur with
      | some k => processParts rest cur (addToKey d k (pyStrip p ++ ['\n']))
      | none => processParts rest none d

/-- The comparison of parser.py lines 88-91:
`recommendation.lower().strip('.?! ')` tested for membership in
`[opt.lower() for opt in REVIEW_RECOMMENDATION_OPTIONS]`.  Note that
Python's `str.strip('.?! ')` removes the punctuation characters from
BOTH ends, not only the trailing end. -/
def recommendationMatches (recommendation : PyStr) : Bool :=
  (REVIEW_RECOMMENDATION_OPTIONS.map pyLower).contains
    (pyStripChars ['.', '?', '!', ' '] (pyLower recommendation))

/-- The accumulated (pre-validation) section contents of
`parse_review_text` on a given input: the split parts are processed with
no current section and empty accumulators, after skipping a leading part
that strips to the empty string (parser.py lines 60-62). -/
def accumulatedSections (s : PyStr) : ReviewDict :=
  let parts := pySplitHeaders s
  let parts2 :=
    match parts with
    | p :: rest => if pyStrip p = [] then rest else parts
    | [] => []
  processParts parts2 none ⟨[], [], [], []⟩

/-- `parser.parse_review_text`.  Mirrors parser.py: empty / whitespace
input fails immediately (lines 22-24; `not review_text` implies
`not review_text.strip()`, so a single strip test is faithful); each
accumulated section is stripped (line 86); the recommendation branch
(lines 88-96) stores the trimmed content in BOTH the matched and the
unmatched case, so validity only affects a warning, not the value; the
final check (lines 100-104) fails exactly when the stored recommendation
is empty. -/
def parse_review_text (s : PyStr) : Option ReviewDict :=
  if pyStrip s = [] then none
  else
    let d := accumulatedSections s
    let final : ReviewDict :=
      ⟨pyStrip d.summary, pyStrip d.strengths, pyStrip d.weaknesses,
        pyStrip d.recommendation⟩
    if final.recommendation = [] then none else some final

/-! ## `utils.py`: `clean_llm_output` and `_clean_with_regex_fallback`

The end-of-review boundary is located with
`end_pattern.search(text, pos)` where `end_pattern` is an alternation
compiled with `re.IGNORECASE | re.MULTILINE`.  `search` returns the
leftmost position at which any alternative matches, scanning from
`pos`; no alternative can match the empty string, so only positions
strictly inside the text matter.  Each alternative is modelled by a
match-at-position test below. -/

/-- An ASCII apostrophe (kept out of string literals). -/
def apos : Char := Char.ofNat 39

/-- Case-insensitive literal match at the start of `sub` (the
`re.IGNORECASE` treatment of a plain-text alternative; `pat` is given
lower-case). -/
def ciPrefixAt (pat : PyStr) (sub : PyStr) : Bool :=
  pyLower (sub.take pat.length) = pat

/-- Whether position `p` of `s` is a line start (MULTILINE `^`): the
start of the string, or just after a newline. -/
def lineStartAt (s : PyStr) (p : Nat) : Bool :=
  p = 0 || s.get? (p - 1) = some '\n'

/-- Python's `\w` on the ASCII range: letters, digits, underscore. -/
def isWordChar (c : Char) : Bool := c.isAlpha || c.isDigit || c = '_'

/-- Match of `\bstep-by-step\b` starting at position `p` of `s`. -/
def stepByStepAt (s : PyStr) (p : Nat) : Bool :=
  (match s.get? (p - 1) with
   | some c => p = 0 || !isWordChar c
   | none => true) &&
  ciPrefixAt "step-by-step".toList (s.drop p) &&
  (match (s.drop p).get? 12 with
   | some c => !isWordChar c
   | none => true)

/-- Match of an alternative of the form `^\s*LIT` at position `p`: `p`
is a line start, and after the maximal whitespace run the literal
follows (the literal starts with a non-whitespace character, so only
the maximal run can precede it). -/
def anchoredAt (lit : PyStr) (s : PyStr) (p : Nat) : Bool :=
  lineStartAt s p &&
  (let sub := s.drop p
   ciPrefixAt lit (sub.drop (sub.takeWhile pyWhitespace).length))

/-- Match, at position `p` of `s`, of one of the shared
`fallback_end_markers` of utils.py (lines 93-99): the think tags, the
meta-commentary literals, `\bstep-by-step\b`, `--- END REVIEW ---`, and
the line-anchored `^\s*Note:` — all case-insensitive. -/
def noiseAt (s : PyStr) (p : Nat) : Bool :=
  let sub := s.drop p
  ciPrefixAt "<think>".toList sub ||
  ciPrefixAt "</think>".toList sub ||
  ciPrefixAt "alright, let me".toList sub ||
  ciPrefixAt "okay, so i need".toList sub ||
  ciPrefixAt ("okay, so i".toList ++ apos :: "ve got".toList) sub ||
  ciPrefixAt ("here".toList ++ apos :: "s my thought process".toList) sub ||
  stepByStepAt s p ||
  ciPrefixAt "thinking process:".toList sub ||
  ciPrefixAt "internal thoughts:".toList sub ||
  ciPrefixAt "my reasoning:".toList sub ||
  ciPrefixAt "please note that".toList sub ||
  ciPrefixAt "--- end review ---".toList sub ||
  anchoredAt "note:".toList s p

/-- Match, at position `p`, of the primary cleaner's end pattern
(utils.py lines 90-102): the start of any new `## `-header line
(`^\s*## `), or one of the noise markers. -/
def endBoundaryAt (s : PyStr) (p : Nat) : Bool :=
  anchoredAt "## ".toList s p || noiseAt s p

/-- Match, at position `p`, of the fallback cleaner's end pattern
(utils.py lines 136-143): the noise markers plus a repeated Summary
header (`^\s*## Summary`) and the meta-lines `^\s*Note:` (already in
the noise list) and `^\s*Summary:`. -/
def fallbackBoundaryAt (s : PyStr) (p : Nat) : Bool :=
  noiseAt s p ||
  anchoredAt "## summary".toList s p ||
  anchoredAt "summary:".toList s p

/-- The `pattern.search(s, pos)` of the cleaner: position of the
leftmost match at or after `pos`, for the given match-at-position test. -/
def findBoundaryFrom (test : PyStr → Nat → Bool) (s : PyStr) (pos : Nat) : Option Nat :=
  (List.range s.length).find? (fun p => decide (pos ≤ p) && test s p)

/-- `utils._clean_with_regex_fallback` (utils.py lines 127-159). -/
def cleanWithRegexFallback (raw : PyStr) : PyStr :=
  match findSub raw REVIEW_SECTION_SUMMARY with
  | none => pyStrip raw
  | some i =>
    let rt := raw.drop i
    match findBoundaryFrom fallbackBoundaryAt rt REVIEW_SECTION_SUMMARY.length with
    | some e => pyStrip (rt.take e)
    | none => pyStrip rt

/-- `utils.clean_llm_output` (utils.py lines 54-124).  Find the first
`## Summary`; if absent return the stripped raw text.  Otherwise look
for `## Recommendation` in the tail; if absent, fall back to the regex
fallback on the original text.  Otherwise truncate just before the
first end-pattern match found at or after the end of the recommendation
marker (keeping everything when there is none) and strip. -/
def clean_llm_output (raw : PyStr) : PyStr :=
  match findSub raw REVIEW_SECTION_SUMMARY with
  | none => pyStrip raw
  | some i =>
    let rp := raw.drop i
    match findSub rp REVIEW_SECTION_RECOMMENDATION with
    | none => cleanWithRegexFallback raw
    | some j =>
      let e :=
        (findBoundaryFrom endBoundaryAt rp
          (j + REVIEW_SECTION_RECOMMENDATION.length)).getD rp.length
      pyStrip (rp.take e)

/-! ## `main.py` -/

/-- `main.format_review_dict_to_text` (main.py lines 115-130): the four
canonical headers interleaved with the four field values, every one of
the eight parts stripped, all joined with a blank line (`"\n\n"`).
`review_dict.get(key, "")` never yields `None`, so the `if p is not
None` filter keeps every part. -/
def format_review_dict_to_text (r : ReviewDict) : PyStr :=
  List.intercalate "\n\n".toList
    ([REVIEW_SECTION_SUMMARY, r.summary,
      REVIEW_SECTION_STRENGTHS, r.strengths,
      REVIEW_SECTION_WEAKNESSES, r.weaknesses,
      REVIEW_SECTION_RECOMMENDATION, r.recommendation].map pyStrip)

/-! ## Definitions taken from the spec's words (for comparison with the
code) and proof-support predicates -/

/-- Removal of the given characters from the trailing end only. -/
def pyStripCharsRight (cs : List Char) (s : PyStr) : PyStr :=
  (s.reverse.dropWhile (fun c => cs.contains c)).reverse

/-- Modelled from the spec: the recommendation comparison as the spec
describes it — "strip trailing punctuation characters (`.`, `?`, `!`,
space) and lower-case it for comparison against the case-insensitive
RecommendationEnum".  Only the trailing end is stripped.  To be compared
with `recommendationMatches` (the code's comparison). -/
def specTrailingStripMatches (recommendation : PyStr) : Bool :=
  (REVIEW_RECOMMENDATION_OPTIONS.map pyLower).contains
    (pyStripCharsRight ['.', '?', '!', ' '] (pyLower recommendation))

/-- Modelled from the spec: the assembler as the spec describes it —
"emit the four canonical headers in fixed order, each immediately
followed by its field content; join header+content pairs with a
blank-line separator; trim each field before emission".  Each pair is a
header directly above its content, and the blank line separates the
pairs.  To be compared with `format_review_dict_to_text`. -/
def specAssemblerText (r : ReviewDict) : PyStr :=
  List.intercalate "\n\n".toList
    [REVIEW_SECTION_SUMMARY ++ '\n' :: pyStrip r.summary,
     REVIEW_SECTION_STRENGTHS ++ '\n' :: pyStrip r.strengths,
     REVIEW_SECTION_WEAKNESSES ++ '\n' :: pyStrip r.weaknesses,
     REVIEW_SECTION_RECOMMENDATION ++ '\n' :: pyStrip r.recommendation]

/-- The line-start flag of the `re.split` scanner after consuming `pre`
with incoming flag `atLS`: the next position is a line start exactly
when the last consumed character is a newline (or nothing was consumed
and the incoming flag stands). -/
def lsFlag (atLS : Bool) (pre : PyStr) : Bool :=
  match pre.getLast? with
  | none => atLS
  | some c => c = '\n'

/-- A field value on which the assembler/parser round trip can be
expected to hold: non-empty, equal to its own trim, and containing no
`##` (so it cannot create or disturb a header line). -/
def goodField (f : PyStr) : Prop :=
  f ≠ [] ∧ pyStrip f = f ∧ containsSub f ('#' :: '#' :: []) = false

instance (f : PyStr) : Decidable (goodField f) := by
  unfold goodField
  infer_instance

/-- The hypothesis of the cleaning-idempotence property: no
noise-boundary pattern matches anywhere in `x`.  (Positions at or
beyond the end of the text never match, so bounding the quantifier
keeps the predicate decidable without loss.) -/
def noiseFree (x : PyStr) : Prop :=
  ∀ p < x.length, noiseAt x p = false

instance (x : PyStr) : Decidable (noiseFree x) := by
  unfold noiseFree
  exact Nat.decidableBallLT _ _

/-- Position `i` of `x` does not hold a word character (it holds a
non-word character, or lies beyond the end). -/
def nonWordAt (x : PyStr) (i : Nat) : Prop :=
  ∀ c, x.get? i = some c → isWordChar c = false

/-! ## Basic lemmas about stripping -/

theorem pyStripRight_idem (s : PyStr) : pyStripRight (pyStripRight s) = pyStripRight s := by
  simp [pyStripRight, List.dropWhile_idempotent]

theorem pyStripRight_isSuffixOfRev (s : PyStr) : (pyStripRight s).reverse <:+ s.reverse := by
  simpa [pyStripRight] using List.dropWhile_suffix (l := s.reverse) pyWhitespace

theorem pyStripRight_isPrefix (s : PyStr) : pyStripRight s <+: s := by
  have h := (pyStripRight_isSuffixOfRev s).reverse
  simpa using h

theorem pyStripLeft_eq_self_of_head (c : Char) (t : PyStr) (hc : pyWhitespace c = false) :
    pyStripLeft (c :: t) = c :: t := by
  simp [pyStripLeft, List.dropWhile_cons, hc]

theorem pyStripLeft_pyStripRight (s : PyStr) :
    pyStripLeft (pyStripRight (pyStripLeft s)) = pyStripRight (pyStripLeft s) := by
  cases hy : pyStripRight (pyStripLeft s) with
  | nil => simp [pyStripLeft]
  | cons c t =>
    have hpre : pyStripRight (pyStripLeft s) <+: pyStripLeft s := pyStripRight_isPrefix _
    rw [hy] at hpre
    obtain ⟨u, hu⟩ := hpre
    have hidem : pyStripLeft (pyStripLeft s) = pyStripLeft s := by
      simp [pyStripLeft, List.dropWhile_idempotent]
    rw [← hu] at hidem
    have hc : pyWhitespace c = false := by
      by_contra hcc
      have hcc' : pyWhitespace c = true := by
        cases hv : pyWhitespace c with
        | false => exact absurd hv hcc
        | true => rfl
      have : pyStripLeft (c :: t ++ u) = pyStripLeft (t ++ u) := by
        simp [pyStripLeft, List.dropWhile_cons, hcc']
      rw [this] at hidem
      have hlen := congrArg List.length hidem
      have hle : (pyStripLeft (t ++ u)).length ≤ (t ++ u).length := by
        simpa [pyStripLeft] using
          (List.dropWhile_suffix (p := pyWhitespace) (l := t ++ u)).length_le
      simp [List.length_append, List.length_cons] at hlen
      simp [List.length_append] at hle
      omega
    exact pyStripLeft_eq_self_of_head c t hc

theorem pyStrip_idem (s : PyStr) : pyStrip (pyStrip s) = pyStrip s := by
  show pyStripRight (pyStripLeft (pyStripRight (pyStripLeft s))) = _
  rw [pyStripLeft_pyStripRight, pyStripRight_idem]
  rfl

/-! ## The branch structure of `parse_review_text` -/

theorem parse_review_text_eq (s : PyStr) :
    parse_review_text s =
      if pyStrip s = [] then none
      else if pyStrip (accumulatedSections s).recommendation = [] then none
      else
        some ⟨pyStrip (accumulatedSections s).summary,
          pyStrip (accumulatedSections s).strengths,
          pyStrip (accumulatedSections s).weaknesses,
          pyStrip (accumulatedSections s).recommendation⟩ := rfl

/-- C9: `parse_review_text` fails (returns the failure value `none`,
never a record) for every input string that is empty or consists only
of whitespace. -/
theorem c9_parse_fails_on_blank_input (s : PyStr) (h : pyStrip s = []) :
    parse_review_text s = none := by
  rw [parse_review_text_eq, if_pos h]

theorem c9_parse_fails_on_blank_input_witness :
    pyStrip (" \t\n ".toList) = [] ∧ parse_review_text (" \t\n ".toList) = none :=
  ⟨by decide, c9_parse_fails_on_blank_input (" \t\n ".toList) (by decide)⟩

/-- C10: `parse_review_text` returns a failure exactly when the input
is empty/whitespace-only or the accumulated recommendation section is
empty after trimming; in particular an input whose summary, strengths
and weaknesses sections are empty but whose recommendation section is
non-empty still parses successfully, the empty sections becoming empty
strings of the record. -/
theorem c10_failure_iff_blank_or_no_recommendation :
    (∀ s : PyStr, parse_review_text s = none ↔
      pyStrip s = [] ∨ pyStrip (accumulatedSections s).recommendation = []) ∧
    parse_review_text
        ("## Summary\n## Strengths\n## Weaknesses / Areas for Improvement\n## Recommendation\nAccept".toList) =
      some ⟨[], [], [], "Accept".toList⟩ := by
  refine ⟨fun s => ?_, by decide⟩
  rw [parse_review_text_eq]
  by_cases h1 : pyStrip s = [] <;>
    by_cases h2 : pyStrip (accumulatedSections s).recommendation = [] <;>
      simp [h1, h2]

/-- C1 counterexample: the claim says the parser fails whenever any of
the four accumulated sections is empty after trimming, and that a
successfully returned record has four non-empty fields.  On this input
the summary, strengths and weaknesses sections are all empty, yet the
parser succeeds and returns a record whose first three fields are the
empty string. -/
theorem c1_counterexample :
    parse_review_text ("## Summary\n\n## Recommendation\nAccept".toList) =
      some ⟨[], [], [], "Accept".toList⟩ := by decide

/-- C1 (amended): for every input, if `parse_review_text` succeeds then
the recommendation field holds non-empty trimmed text (the other three
fields may be empty); conversely, if the accumulated recommendation
section is empty after trimming, the parser fails — by returning the
single failure value `none`, which names no sections. -/
theorem c1_success_iff_recommendation_present :
    (∀ s r, parse_review_text s = some r →
      r.recommendation ≠ [] ∧ pyStrip r.recommendation = r.recommendation) ∧
    (∀ s, pyStrip (accumulatedSections s).recommendation = [] →
      parse_review_text s = none) := by
  constructor
  · intro s r h
    rw [parse_review_text_eq] at h
    by_cases h1 : pyStrip s = []
    · simp [h1] at h
    by_cases h2 : pyStrip (accumulatedSections s).recommendation = []
    · simp [h1, h2] at h
    rw [if_neg h1, if_neg h2] at h
    cases h
    exact ⟨h2, pyStrip_idem _⟩
  · intro s h
    rw [parse_review_text_eq]
    by_cases h1 : pyStrip s = []
    · rw [if_pos h1]
    · rw [if_neg h1, if_pos h]

theorem c1_success_iff_recommendation_present_witness :
    (("ok".toList : PyStr) ≠ [] ∧ pyStrip "ok".toList = "ok".toList) ∧
      parse_review_text ("plain text with no headers".toList) = none :=
  ⟨c1_success_iff_recommendation_present.1 ("## Recommendation\nok".toList)
      ⟨[], [], [], "ok".toList⟩ (by decide),
    c1_success_iff_recommendation_present.2 ("plain text with no headers".toList)
      (by decide)⟩

/-- C4 counterexample: the claim describes the comparison as stripping
only TRAILING punctuation before lower-casing, but the code's
`.strip('.?! ')` strips both ends: `"?Accept"` is recognised as a valid
recommendation by the code although its trailing-stripped lower-casing
`"?accept"` matches no enum value. -/
theorem c4_counterexample :
    recommendationMatches ("?Accept".toList) = true ∧
      specTrailingStripMatches ("?Accept".toList) = false := by decide

/-- C4 (amended): the accumulated recommendation text is trimmed; for
comparison only, punctuation characters (`.`, `?`, `!`, space) are
stripped from BOTH ends and it is lower-cased, then compared against
the closed set; on a match the trimmed original-case text is stored
(input `"reject."` matches `Reject` and is stored as `"reject."`); on a
non-match (`"Probably accept"`) the trimmed text is stored verbatim and
only a warning is emitted — a non-empty but invalid recommendation
never by itself causes parse failure. -/
theorem c4_recommendation_normalization :
    recommendationMatches ("reject.".toList) = true ∧
    pyStripChars ['.', '?', '!', ' '] (pyLower "reject.".toList) = pyLower "Reject".toList ∧
    parse_review_text
        ("## Summary\nS\n## Strengths\nA\n## Weaknesses / Areas for Improvement\nB\n## Recommendation\nreject.".toList) =
      some ⟨"S".toList, "A".toList, "B".toList, "reject.".toList⟩ ∧
    recommendationMatches ("Probably accept".toList) = false ∧
    parse_review_text
        ("## Summary\nS\n## Strengths\nA\n## Weaknesses / Areas for Improvement\nB\n## Recommendation\nProbably accept".toList) =
      some ⟨"S".toList, "A".toList, "B".toList, "Probably accept".toList⟩ ∧
    (∀ s, pyStrip s ≠ [] → pyStrip (accumulatedSections s).recommendation ≠ [] →
      parse_review_text s =
        some ⟨pyStrip (accumulatedSections s).summary,
          pyStrip (accumulatedSections s).strengths,
          pyStrip (accumulatedSections s).weaknesses,
          pyStrip (accumulatedSections s).recommendation⟩) := by
  refine ⟨by decide, by decide, by decide, by decide, by decide, fun s h1 h2 => ?_⟩
  rw [parse_review_text_eq, if_neg h1, if_neg h2]

theorem c4_recommendation_normalization_witness :
    pyStrip ("## Recommendation\nmaybe".toList) ≠ [] ∧
      pyStrip (accumulatedSections ("## Recommendation\nmaybe".toList)).recommendation ≠ [] ∧
      parse_review_text ("## Recommendation\nmaybe".toList) =
        some ⟨pyStrip (accumulatedSections ("## Recommendation\nmaybe".toList)).summary,
          pyStrip (accumulatedSections ("## Recommendation\nmaybe".toList)).strengths,
          pyStrip (accumulatedSections ("## Recommendation\nmaybe".toList)).weaknesses,
          pyStrip (accumulatedSections ("## Recommendation\nmaybe".toList)).recommendation⟩ :=
  ⟨by decide, by decide,
    c4_recommendation_normalization.2.2.2.2.2 ("## Recommendation\nmaybe".toList)
      (by decide) (by decide)⟩

/-! ## Further shared parse lemmas -/

theorem parse_eq_none_of_rec_nil (s : PyStr)
    (h : pyStrip (accumulatedSections s).recommendation = []) :
    parse_review_text s = none := by
  rw [parse_review_text_eq]
  by_cases h1 : pyStrip s = []
  · rw [if_pos h1]
  · rw [if_neg h1, if_pos h]

theorem parse_eq_none_iff (s : PyStr) :
    parse_review_text s = none ↔
      pyStrip s = [] ∨ pyStrip (accumulatedSections s).recommendation = [] := by
  rw [parse_review_text_eq]
  by_cases h1 : pyStrip s = [] <;>
    by_cases h2 : pyStrip (accumulatedSections s).recommendation = [] <;>
      simp [h1, h2]

/-- C5: every header line that does not exactly match one of the four
canonical markers is an unknown header: its header line is discarded
and following content is attributed to no section until the next known
header; content before any known header is likewise dropped.  In
particular an extra `## Discussion` section between Strengths and
Weaknesses contributes to neither neighbour. -/
theorem c5_unknown_headers_dropped :
    (∀ (rest : List PyStr) (d : ReviewDict) (p : PyStr), isHeaderPart p = false →
      processParts (p :: rest) none d = processParts rest none d) ∧
    (∀ (rest : List PyStr) (d : ReviewDict) (cur : Option SectionKey) (p : PyStr),
      isHeaderPart p = true → headerToKey (pyStrip p) = none →
      processParts (p :: rest) cur d = processParts rest none d) ∧
    parse_review_text
        ("## Summary\nS\n## Strengths\n- A\n## Discussion\nchatter\n## Weaknesses / Areas for Improvement\n- B\n## Recommendation\nAccept".toList) =
      some ⟨"S".toList, "- A".toList, "- B".toList, "Accept".toList⟩ ∧
    parse_review_text
        ("Some preamble\n## Summary\nS\n## Recommendation\nAccept".toList) =
      some ⟨"S".toList, [], [], "Accept".toList⟩ := by
  refine ⟨fun rest d p h => ?_, fun rest d cur p h1 h2 => ?_, by decide, by decide⟩
  · simp [processParts, h]
  · simp [processParts, h1, h2]

theorem c5_unknown_headers_dropped_witness :
    processParts ["chatter".toList] none ⟨[], [], [], []⟩ =
        processParts [] none ⟨[], [], [], []⟩ ∧
      processParts ["## Discussion".toList] (some .strengths) ⟨[], [], [], []⟩ =
        processParts [] none ⟨[], [], [], []⟩ :=
  ⟨c5_unknown_headers_dropped.1 [] ⟨[], [], [], []⟩ ("chatter".toList) (by decide),
    c5_unknown_headers_dropped.2.1 [] ⟨[], [], [], []⟩ (some .strengths)
      ("## Discussion".toList) (by decide) (by decide)⟩

/-- C8 counterexample: the claim (with the spec) has each canonical
header immediately followed by its field content, with the blank-line
separator only between header+content pairs; the code joins ALL eight
parts — headers and contents alike — with a blank line, so a blank line
also separates each header from its own content. -/
theorem c8_counterexample :
    format_review_dict_to_text
        ⟨"S".toList, "T".toList, "W".toList, "Accept".toList⟩ ≠
      specAssemblerText ⟨"S".toList, "T".toList, "W".toList, "Accept".toList⟩ := by
  decide

/-- C8 (amended): the assembler emits the four canonical headers in
fixed order, each followed by its trimmed field content, with a
blank-line separator between every pair of adjacent parts — including
between a header and its own content; it never reorders or omits a
section. -/
theorem c8_assembler_shape (r : ReviewDict) :
    format_review_dict_to_text r =
      REVIEW_SECTION_SUMMARY ++ "\n\n".toList ++ pyStrip r.summary ++ "\n\n".toList ++
      REVIEW_SECTION_STRENGTHS ++ "\n\n".toList ++ pyStrip r.strengths ++ "\n\n".toList ++
      REVIEW_SECTION_WEAKNESSES ++ "\n\n".toList ++ pyStrip r.weaknesses ++ "\n\n".toList ++
      REVIEW_SECTION_RECOMMENDATION ++ "\n\n".toList ++ pyStrip r.recommendation := by
  have hS : pyStrip REVIEW_SECTION_SUMMARY = REVIEW_SECTION_SUMMARY := by decide
  have hT : pyStrip REVIEW_SECTION_STRENGTHS = REVIEW_SECTION_STRENGTHS := by decide
  have hW : pyStrip REVIEW_SECTION_WEAKNESSES = REVIEW_SECTION_WEAKNESSES := by decide
  have hR : pyStrip REVIEW_SECTION_RECOMMENDATION = REVIEW_SECTION_RECOMMENDATION := by
    decide
  simp [format_review_dict_to_text, List.intercalate, List.intersperse, hS, hT, hW, hR]

/-- C6 counterexample: the claim says that whenever the raw input has
no `## Summary` substring, parsing the (unchanged) cleaned text fails.
This raw input has no `## Summary` substring, cleaning indeed returns
it unchanged, but parsing SUCCEEDS, because a `## Recommendation`
header can still be present. -/
theorem c6_counterexample :
    containsSub ("## Recommendation\nAccept".toList) REVIEW_SECTION_SUMMARY = false ∧
      clean_llm_output ("## Recommendation\nAccept".toList) =
        "## Recommendation\nAccept".toList ∧
      parse_review_text ("## Recommendation\nAccept".toList) =
        some ⟨[], [], [], "Accept".toList⟩ := by
  refine ⟨by decide, by decide, by decide⟩

/-- C6 (amended): for every raw input containing no `## Summary`
substring, `clean_llm_output` returns the trimmed raw input unchanged;
subsequent parsing of that result fails — with the single failure value
`none`, which names no keys — exactly in the cases where it yields no
recommendation content (for instance when the text contains no header
lines at all); if a `## Recommendation` section is still present the
parse can succeed. -/
theorem c6_no_start_marker :
    (∀ raw : PyStr, containsSub raw REVIEW_SECTION_SUMMARY = false →
      clean_llm_output raw = pyStrip raw) ∧
    (∀ raw : PyStr,
      parse_review_text (pyStrip raw) = none ↔
        pyStrip (accumulatedSections (pyStrip raw)).recommendation = []) := by
  constructor
  · intro raw h
    have hn : findSub raw REVIEW_SECTION_SUMMARY = none := by
      cases hf : findSub raw REVIEW_SECTION_SUMMARY with
      | none => rfl
      | some i => rw [containsSub, hf] at h; simp at h
    simp [clean_llm_output, hn]
  · intro raw
    constructor
    · intro h
      rcases (parse_eq_none_iff _).mp h with h1 | h2
      · rw [pyStrip_idem] at h1
        rw [h1]
        decide
      · exact h2
    · intro h
      exact parse_eq_none_of_rec_nil _ h

theorem c6_no_start_marker_witness :
    clean_llm_output ("just plain text, nothing structured".toList) =
        pyStrip ("just plain text, nothing structured".toList) ∧
      (parse_review_text (pyStrip ("just plain text, nothing structured".toList)) = none ↔
        pyStrip (accumulatedSections
          (pyStrip ("just plain text, nothing structured".toList))).recommendation = []) :=
  ⟨c6_no_start_marker.1 ("just plain text, nothing structured".toList) (by decide),
    c6_no_start_marker.2 ("just plain text, nothing structured".toList)⟩

/-- C3: when the Summary marker occurs and the Recommendation marker
occurs in the text from the Summary marker onwards, cleaning returns
the text from the first Summary marker truncated just before the first
end-pattern match (a new `##`-header line start or a noise pattern)
found at or after the end of the Recommendation marker, trimmed — the
whole tail being kept when there is no such boundary; in particular, on
the spec's example the `<think>` tag is the boundary, the cleaned text
runs from `## Summary` through `Accept`, and parsing it yields the
recommendation `Accept`. -/
theorem c3_structured_cleaning :
    (∀ (raw : PyStr) (i j : Nat),
      findSub raw REVIEW_SECTION_SUMMARY = some i →
      findSub (raw.drop i) REVIEW_SECTION_RECOMMENDATION = some j →
      clean_llm_output raw =
        pyStrip ((raw.drop i).take
          ((findBoundaryFrom endBoundaryAt (raw.drop i)
            (j + REVIEW_SECTION_RECOMMENDATION.length)).getD (raw.drop i).length))) ∧
    clean_llm_output
        ("Sure! ## Summary\nFoo\n## Strengths\n- A\n## Weaknesses\n- B\n## Recommendation\nAccept\n<think>actually let me reconsider</think>".toList) =
      "## Summary\nFoo\n## Strengths\n- A\n## Weaknesses\n- B\n## Recommendation\nAccept".toList ∧
    (parse_review_text
        (clean_llm_output
          ("Sure! ## Summary\nFoo\n## Strengths\n- A\n## Weaknesses\n- B\n## Recommendation\nAccept\n<think>actually let me reconsider</think>".toList))).map
        ReviewDict.recommendation = some "Accept".toList := by
  refine ⟨fun raw i j h1 h2 => ?_, by decide, by decide⟩
  simp [clean_llm_output, h1, h2]

theorem c3_structured_cleaning_witness :
    findSub ("Sure! ## Summary\nFoo\n## Recommendation\nAccept".toList)
        REVIEW_SECTION_SUMMARY = some 6 ∧
      findSub (("Sure! ## Summary\nFoo\n## Recommendation\nAccept".toList).drop 6)
        REVIEW_SECTION_RECOMMENDATION = some 15 ∧
      clean_llm_output ("Sure! ## Summary\nFoo\n## Recommendation\nAccept".toList) =
        pyStrip ((("Sure! ## Summary\nFoo\n## Recommendation\nAccept".toList).drop 6).take
          ((findBoundaryFrom endBoundaryAt
            (("Sure! ## Summary\nFoo\n## Recommendation\nAccept".toList).drop 6)
            (15 + REVIEW_SECTION_RECOMMENDATION.length)).getD
            ((("Sure! ## Summary\nFoo\n## Recommendation\nAccept".toList).drop 6).length))) :=
  ⟨by decide, by decide,
    c3_structured_cleaning.1 ("Sure! ## Summary\nFoo\n## Recommendation\nAccept".toList)
      6 15 (by decide) (by decide)⟩

/-! ## List helper lemmas for the splitter proofs -/

theorem drop_length_takeWhile (p : Char → Bool) (l : List Char) :
    l.drop (l.takeWhile p).length = l.dropWhile p := by
  induction l with
  | nil => rfl
  | cons c t ih =>
    by_cases h : p c
    · simp [List.takeWhile_cons, List.dropWhile_cons, h, ih]
    · simp [List.takeWhile_cons, List.dropWhile_cons, h]

theorem takeWhile_all_append (p : Char → Bool) (u v : List Char)
    (hu : ∀ x ∈ u, p x = true) :
    List.takeWhile p (u ++ v) = u ++ List.takeWhile p v := by
  induction u with
  | nil => simp
  | cons c t ih =>
    simp only [List.cons_append, List.takeWhile_cons]
    rw [hu c (by simp)]
    simp [ih (fun x hx => hu x (by simp [hx]))]

theorem dropWhile_all_append (p : Char → Bool) (u v : List Char)
    (hu : ∀ x ∈ u, p x = true) :
    List.dropWhile p (u ++ v) = List.dropWhile p v := by
  induction u with
  | nil => simp
  | cons c t ih =>
    simp only [List.cons_append, List.dropWhile_cons]
    rw [hu c (by simp)]
    simp [ih (fun x hx => hu x (by simp [hx]))]

theorem dropWhile_append_of_ne_nil (p : Char → Bool) (u v : List Char)
    (h : u.dropWhile p ≠ []) :
    List.dropWhile p (u ++ v) = u.dropWhile p ++ v := by
  rw [List.dropWhile_append]
  simp [List.isEmpty_iff, h]

/-! ## Strip characterizations -/

theorem pyStripLeft_eq_self_parts (f : PyStr) (h : pyStrip f = f) :
    pyStripLeft f = f ∧ pyStripRight f = f := by
  have hsl : pyStripLeft f <:+ f := List.dropWhile_suffix _
  have h1 : (pyStripLeft f).length ≤ f.length := hsl.length_le
  have hsr : (pyStripRight (pyStripLeft f)).length ≤ (pyStripLeft f).length := by
    have := (List.dropWhile_suffix (l := (pyStripLeft f).reverse) pyWhitespace).length_le
    simpa [pyStripRight] using this
  have hlen : (pyStrip f).length = f.length := by rw [h]
  have hlen2 : (pyStripLeft f).length = f.length := by
    have : (pyStrip f).length ≤ (pyStripLeft f).length := hsr
    omega
  have hL : pyStripLeft f = f := hsl.eq_of_length hlen2
  refine ⟨hL, ?_⟩
  have : pyStrip f = pyStripRight f := by rw [pyStrip, hL]
  rw [← this, h]

theorem head_not_ws_of_stripLeft (c : Char) (t : PyStr)
    (h : pyStripLeft (c :: t) = c :: t) : pyWhitespace c = false := by
  cases hc : pyWhitespace c with
  | false => rfl
  | true =>
    have : pyStripLeft (c :: t) = pyStripLeft t := by
      simp [pyStripLeft, List.dropWhile_cons, hc]
    rw [this] at h
    have := congrArg List.length h
    have hle : (pyStripLeft t).length ≤ t.length :=
      (List.dropWhile_suffix (l := t) pyWhitespace).length_le
    simp [pyStripLeft] at this hle
    omega

theorem getLast_not_ws_of_stripRight (f : PyStr) (h : pyStripRight f = f)
    (hne : f ≠ []) : ∃ c, f.getLast? = some c ∧ pyWhitespace c = false := by
  have hrev : f.reverse.dropWhile pyWhitespace = f.reverse := by
    have := congrArg List.reverse h
    simpa [pyStripRight] using this
  cases hf : f.reverse with
  | nil => exact absurd (by simpa using congrArg List.reverse hf) hne
  | cons c t =>
    rw [hf] at hrev
    refine ⟨c, ?_, head_not_ws_of_stripLeft c t (by simpa [pyStripLeft] using hrev)⟩
    rw [← List.head?_reverse, hf]
    rfl

theorem pyStrip_eq_nil_iff (s : PyStr) :
    pyStrip s = [] ↔ ∀ x ∈ s, pyWhitespace x = true := by
  constructor
  · intro h x hx
    by_contra hws
    have hws' : pyWhitespace x = false := by
      cases hv : pyWhitespace x with
      | false => rfl
      | true => exact absurd hv hws
    have hmem : x ∈ pyStripLeft s := by
      by_contra hmem
      have hsplit := List.takeWhile_append_dropWhile (p := pyWhitespace) (l := s)
      have : x ∈ s.takeWhile pyWhitespace := by
        rw [← hsplit] at hx
        rcases List.mem_append.mp hx with h1 | h2
        · exact h1
        · exact absurd h2 hmem
      have := List.mem_takeWhile_imp this
      rw [hws'] at this
      exact Bool.false_ne_true this
    have hmem2 : x ∈ (pyStripLeft s).reverse := by simpa using hmem
    have : x ∈ (pyStripLeft s).reverse.dropWhile pyWhitespace := by
      by_contra hmem3
      have hsplit := List.takeWhile_append_dropWhile (p := pyWhitespace)
        (l := (pyStripLeft s).reverse)
      have : x ∈ ((pyStripLeft s).reverse).takeWhile pyWhitespace := by
        rw [← hsplit] at hmem2
        rcases List.mem_append.mp hmem2 with h1 | h2
        · exact h1
        · exact absurd h2 hmem3
      have := List.mem_takeWhile_imp this
      rw [hws'] at this
      exact Bool.false_ne_true this
    rw [show (pyStripLeft s).reverse.dropWhile pyWhitespace = (pyStrip s).reverse by
      simp [pyStrip, pyStripRight]] at this
    rw [h] at this
    simp at this
  · intro h
    have h1 : pyStripLeft s = [] := List.dropWhile_eq_nil_iff.mpr h
    rw [pyStrip, h1]
    rfl

theorem pyStrip_sandwich (u f v : PyStr)
    (hu : ∀ x ∈ u, pyWhitespace x = true) (hv : ∀ x ∈ v, pyWhitespace x = true)
    (hf : pyStrip f = f) : pyStrip (u ++ f ++ v) = f := by
  obtain ⟨hL, hR⟩ := pyStripLeft_eq_self_parts f hf
  cases f with
  | nil =>
    simp only [List.append_nil, List.nil_append]
    rw [pyStrip_eq_nil_iff]
    intro x hx
    rcases List.mem_append.mp hx with h1 | h2
    · exact hu x h1
    · exact hv x h2
  | cons c t =>
    have hc : pyWhitespace c = false := head_not_ws_of_stripLeft c t hL
    obtain ⟨d, hd, hdws⟩ := getLast_not_ws_of_stripRight (c :: t) hR (by simp)
    have hleft : pyStripLeft (u ++ (c :: t) ++ v) = (c :: t) ++ v := by
      rw [List.append_assoc, pyStripLeft, dropWhile_all_append _ _ _ hu]
      simp [List.dropWhile_cons, hc]
    rw [pyStrip, hleft]
    have hrevlast : ((c :: t) : PyStr).reverse ≠ [] := by simp
    have hdrev : ∃ t', ((c :: t) : PyStr).reverse = d :: t' := by
      cases hr : ((c :: t) : PyStr).reverse with
      | nil => exact absurd hr hrevlast
      | cons e t' =>
        refine ⟨t', ?_⟩
        have : ((c :: t) : PyStr).getLast? = some e := by
          rw [← List.head?_reverse, hr]; rfl
        rw [hd] at this
        cases this
        rfl
    obtain ⟨t', ht'⟩ := hdrev
    rw [pyStripRight, List.reverse_append, ht']
    rw [dropWhile_all_append _ _ _ (by intro x hx; exact hv x (by simpa using hx)),
      List.dropWhile_cons]
    simp only [hdws, Bool.false_eq_true, if_false]
    rw [← ht']
    simp

/-! ## Characterizing `findSub` -/

theorem findSubAux_eq_none_iff (pat : PyStr) :
    ∀ (s : PyStr) (i : Nat), findSubAux pat s i = none ↔ ∀ k, ¬ pat <+: s.drop k := by
  intro s
  induction s with
  | nil =>
    intro i
    by_cases hp : pat.isPrefixOf ([] : PyStr)
    · rw [findSubAux, if_pos hp]
      constructor
      · intro h; cases h
      · intro h
        exact absurd (List.isPrefixOf_iff_prefix.mp hp) (by simpa using h 0)
    · rw [show findSubAux pat ([] : PyStr) i = none by rw [findSubAux, if_neg hp]]
      constructor
      · intro _ k
        simp only [List.drop_nil]
        intro hcontra
        exact hp (List.isPrefixOf_iff_prefix.mpr hcontra)
      · intro _; rfl
  | cons c t ih =>
    intro i
    by_cases hp : pat.isPrefixOf (c :: t)
    · rw [findSubAux, if_pos hp]
      constructor
      · intro h; cases h
      · intro h
        exact absurd (List.isPrefixOf_iff_prefix.mp hp) (by simpa using h 0)
    · rw [show findSubAux pat (c :: t) i = findSubAux pat t (i + 1) by
        rw [findSubAux, if_neg hp]]
      rw [ih (i + 1)]
      constructor
      · intro h k
        cases k with
        | zero =>
          simp only [List.drop_zero]
          intro hcontra
          exact hp (List.isPrefixOf_iff_prefix.mpr hcontra)
        | succ k => simpa using h k
      · intro h k
        simpa using h (k + 1)

theorem findSub_eq_none_iff (s pat : PyStr) :
    findSub s pat = none ↔ ∀ k, ¬ pat <+: s.drop k :=
  findSubAux_eq_none_iff pat s 0

theorem goodField_no_hash (f : PyStr) (h : goodField f) :
    ∀ k, ¬ ('#' :: '#' :: ([] : PyStr)) <+: f.drop k := by
  obtain ⟨-, -, h3⟩ := h
  rw [containsSub] at h3
  cases hf : findSub f ('#' :: '#' :: ([] : PyStr)) with
  | none => exact (findSub_eq_none_iff _ _).mp hf
  | some j => rw [hf] at h3; simp at h3

/-! ## Stepping lemmas for the split scanner -/

theorem lsFlag_cons (atLS : Bool) (c : Char) (pre : PyStr) :
    lsFlag atLS (c :: pre) = lsFlag (c = '\n') pre := by
  cases pre with
  | nil => rfl
  | cons d t =>
    simp only [lsFlag, List.getLast?_cons_cons]
    cases hl : (d :: t).getLast? with
    | none => simp at hl
    | some e => rfl

theorem lsFlag_append_newline (atLS : Bool) (u : PyStr) :
    lsFlag atLS (u ++ ['\n']) = true := by
  simp [lsFlag, List.getLast?_append]

theorem matchHeaderAt_nil : matchHeaderAt [] = none := rfl

theorem splitLoop_succ (fuel : Nat) (s : PyStr) (atLS : Bool) (acc : PyStr) :
    splitLoop (fuel + 1) s atLS acc =
      match (if atLS then matchHeaderAt s else none) with
      | some (cap, len) => acc.reverse :: cap :: splitLoop fuel (s.drop len) false []
      | none =>
        match s with
        | [] => [acc.reverse]
        | c :: t => splitLoop fuel t (c = '\n') (c :: acc) := rfl

theorem splitLoop_match (fuel : Nat) (s acc cap : PyStr) (len : Nat)
    (h : matchHeaderAt s = some (cap, len)) :
    splitLoop (fuel + 1) s true acc =
      acc.reverse :: cap :: splitLoop fuel (s.drop len) false [] := by
  rw [splitLoop_succ]
  simp [h]

theorem splitLoop_nil (fuel : Nat) (atLS : Bool) (acc : PyStr) :
    splitLoop (fuel + 1) [] atLS acc = [acc.reverse] := by
  rw [splitLoop_succ]
  cases atLS <;> simp [matchHeaderAt_nil]

theorem splitLoop_cons_step (fuel : Nat) (c : Char) (t : PyStr) (atLS : Bool) (acc : PyStr)
    (h : (if atLS then matchHeaderAt (c :: t) else none) = none) :
    splitLoop (fuel + 1) (c :: t) atLS acc = splitLoop fuel t (c = '\n') (c :: acc) := by
  rw [splitLoop_succ]
  simp [h]

theorem splitLoop_consume : ∀ (R rest : PyStr) (fuel : Nat) (atLS : Bool) (acc : PyStr),
    (∀ pre suf, R = pre ++ suf → suf ≠ [] → lsFlag atLS pre = true →
      matchHeaderAt (suf ++ rest) = none) →
    splitLoop (R.length + fuel) (R ++ rest) atLS acc =
      splitLoop fuel rest (lsFlag atLS R) (R.reverse ++ acc) := by
  intro R
  induction R with
  | nil =>
    intro rest fuel atLS acc h
    simp [lsFlag]
  | cons c R ih =>
    intro rest fuel atLS acc h
    have hstep : (if atLS then matchHeaderAt (c :: (R ++ rest)) else none) = none := by
      cases atLS with
      | false => rfl
      | true => exact h [] (c :: R) rfl (by simp) rfl
    have h1 : splitLoop ((c :: R).length + fuel) ((c :: R) ++ rest) atLS acc =
        splitLoop (R.length + fuel) (R ++ rest) (c = '\n') (c :: acc) := by
      have harith : (c :: R).length + fuel = (R.length + fuel) + 1 := by
        simp [List.length_cons]
        omega
      rw [harith, List.cons_append]
      exact splitLoop_cons_step (R.length + fuel) c (R ++ rest) atLS acc hstep
    have h' : ∀ pre suf, R = pre ++ suf → suf ≠ [] → lsFlag (c = '\n') pre = true →
        matchHeaderAt (suf ++ rest) = none := by
      intro pre suf heq hne hflg
      exact h (c :: pre) suf (by rw [heq]; rfl) hne
        (by rw [lsFlag_cons]; exact hflg)
    rw [h1, ih rest fuel (c = '\n') (c :: acc) h', lsFlag_cons]
    congr 1
    simp

/-! ## Computing `matchHeaderAt` on the shapes the assembler produces -/

theorem matchHeaderAt_of_dropWhile (s r2 : PyStr)
    (h : s.dropWhile pyWhitespace = '#' :: '#' :: r2)
    (hne : r2.takeWhile pyWhitespace ≠ []) :
    matchHeaderAt s = some ('#' :: '#' :: (r2.takeWhile pyWhitespace ++
        (r2.dropWhile pyWhitespace).takeWhile (fun c => c ≠ '\n')),
      (s.takeWhile pyWhitespace).length + 2 + (r2.takeWhile pyWhitespace).length +
        ((r2.dropWhile pyWhitespace).takeWhile (fun c => c ≠ '\n')).length) := by
  rw [matchHeaderAt.eq_def, h]
  simp [hne]

theorem matchHeaderAt_header (u : PyStr) (c : Char) (w z : PyStr)
    (hu : ∀ x ∈ u, pyWhitespace x = true)
    (hc : pyWhitespace c = false)
    (hw : ∀ x ∈ w, x ≠ '\n') :
    matchHeaderAt (u ++ '#' :: '#' :: ' ' :: c :: (w ++ '\n' :: z)) =
      some ('#' :: '#' :: ' ' :: c :: w, u.length + w.length + 4) := by
  have hsharp : pyWhitespace '#' = false := by decide
  have hspace : pyWhitespace ' ' = true := by decide
  have hcn : c ≠ '\n' := by
    intro hh
    rw [hh] at hc
    exact absurd hc (by decide)
  have hdw : (u ++ '#' :: '#' :: ' ' :: c :: (w ++ '\n' :: z)).dropWhile pyWhitespace =
      '#' :: '#' :: (' ' :: c :: (w ++ '\n' :: z)) := by
    rw [dropWhile_all_append _ _ _ hu, List.dropWhile_cons]
    simp [hsharp]
  have htw : (u ++ '#' :: '#' :: ' ' :: c :: (w ++ '\n' :: z)).takeWhile pyWhitespace = u := by
    rw [takeWhile_all_append _ _ _ hu, List.takeWhile_cons]
    simp [hsharp]
  have htwr2 : (' ' :: c :: (w ++ '\n' :: z)).takeWhile pyWhitespace = [' '] := by
    rw [List.takeWhile_cons]
    simp [hspace, List.takeWhile_cons, hc]
  have hdwr2 : (' ' :: c :: (w ++ '\n' :: z)).dropWhile pyWhitespace =
      c :: (w ++ '\n' :: z) := by
    rw [List.dropWhile_cons]
    simp [hspace, List.dropWhile_cons, hc]
  have hline : (c :: (w ++ '\n' :: z)).takeWhile (fun x => x ≠ '\n') = c :: w := by
    rw [List.takeWhile_cons]
    have hcb : (decide ¬(c = '\n')) = true := by simp [hcn]
    simp only [ne_eq, hcb, if_true]
    rw [takeWhile_all_append _ _ _ (by intro x hx; simpa using hw x hx),
      List.takeWhile_cons]
    simp
  rw [matchHeaderAt_of_dropWhile _ _ hdw (by rw [htwr2]; simp)]
  rw [htwr2, htw, hdwr2, hline]
  simp [List.length_cons]
  omega

theorem matchHeaderAt_none_of_no_hash (s : PyStr)
    (h : ∀ r2, s.dropWhile pyWhitespace ≠ '#' :: '#' :: r2) : matchHeaderAt s = none := by
  rw [matchHeaderAt.eq_def]
  split
  · next r2 heq => exact absurd heq (h r2)
  · rfl

/-! ## No header match can start inside a good field -/

theorem mem_of_getLast?_eq_some (l : List Char) (c : Char) (h : l.getLast? = some c) :
    c ∈ l := by
  obtain ⟨hne, heq⟩ := List.mem_getLast?_eq_getLast (l := l) (x := c) (Option.mem_def.mpr h)
  rw [heq]
  exact List.getLast_mem hne

theorem field_dropWhile_no_hash (f f' v : PyStr) (hg : goodField f)
    (hsuf : ∃ g, f = g ++ f') (hne : f' ≠ [])
    (hv : v = [] ∨ ∃ z, v = '\n' :: z) :
    ∀ r2, (f' ++ v).dropWhile pyWhitespace ≠ '#' :: '#' :: r2 := by
  intro r2 hcontra
  obtain ⟨g, hgf⟩ := hsuf
  obtain ⟨hne', hstrip, hhash⟩ := hg
  obtain ⟨cl, hcl, hclws⟩ :=
    getLast_not_ws_of_stripRight f (pyStripLeft_eq_self_parts f hstrip).2 hne'
  have hfl : f'.getLast? = some cl := by
    rw [hgf, List.getLast?_append] at hcl
    cases hfl' : f'.getLast? with
    | none => exact absurd (List.getLast?_eq_none_iff.mp hfl') hne
    | some d =>
      rw [hfl'] at hcl
      simpa using hcl
  have hdne : f'.dropWhile pyWhitespace ≠ [] := by
    intro hnil
    have hall := List.dropWhile_eq_nil_iff.mp hnil
    rw [hall cl (mem_of_getLast?_eq_some f' cl hfl)] at hclws
    cases hclws
  rw [dropWhile_append_of_ne_nil _ _ _ hdne] at hcontra
  cases hdw : f'.dropWhile pyWhitespace with
  | nil => exact hdne hdw
  | cons x y =>
    rw [hdw] at hcontra
    cases y with
    | nil =>
      rcases hv with hv | ⟨z, hv⟩
      · rw [hv] at hcontra
        simp at hcontra
      · rw [hv] at hcontra
        simp only [List.cons_append, List.nil_append] at hcontra
        injection hcontra with h1 h2
        injection h2 with h3 h4
        exact absurd h3 (by decide)
    | cons x2 y2 =>
      simp only [List.cons_append] at hcontra
      injection hcontra with hx1 hrest1
      injection hrest1 with hx2 hrest2
      have hsuf2 : (x :: x2 :: y2 : PyStr) <:+ f := by
        have hin : (x :: x2 :: y2 : PyStr) <:+ f' := by
          rw [← hdw]
          exact List.dropWhile_suffix pyWhitespace
        exact hin.trans ⟨g, hgf.symm⟩
      obtain ⟨t, ht⟩ := hsuf2
      apply goodField_no_hash f ⟨hne', hstrip, hhash⟩ t.length
      rw [← ht, List.drop_left, hx1, hx2]
      exact ⟨y2, rfl⟩

theorem matchHeaderAt_ws_field_none (u f f' v : PyStr)
    (hu : ∀ x ∈ u, pyWhitespace x = true) (hg : goodField f)
    (hsuf : ∃ g, f = g ++ f') (hne : f' ≠ [])
    (hv : v = [] ∨ ∃ z, v = '\n' :: z) :
    matchHeaderAt (u ++ (f' ++ v)) = none := by
  apply matchHeaderAt_none_of_no_hash
  intro r2
  rw [dropWhile_all_append _ _ _ hu]
  exact field_dropWhile_no_hash f f' v hg hsuf hne hv r2

theorem lsFlag_eq_of_getLast (B : Bool) (l : PyStr) (c : Char)
    (h : l.getLast? = some c) : lsFlag B l = decide (c = '\n') := by
  unfold lsFlag
  rw [h]

/-- The no-match hypothesis of `splitLoop_consume` holds for a content
region `"\n\n" ++ f ++ "\n"` (a blank-line separator, a good field, and
the first newline of the next separator) followed by any rest. -/
theorem consume_hyp_mid (f restT : PyStr) (hg : goodField f) :
    ∀ pre suf, ('\n' :: '\n' :: (f ++ ['\n']) : PyStr) = pre ++ suf → suf ≠ [] →
      lsFlag false pre = true → matchHeaderAt (suf ++ restT) = none := by
  intro pre suf heq hne hflg
  obtain ⟨hne', hstrip, hhash⟩ := hg
  rcases pre with _ | ⟨p1, pre⟩
  · simp [lsFlag] at hflg
  rw [List.cons_append] at heq
  injection heq with hp1 h2
  rcases pre with _ | ⟨p2, pre⟩
  · rw [List.nil_append] at h2
    rw [← h2]
    rw [show (('\n' :: (f ++ ['\n'])) ++ restT : PyStr) =
      ['\n'] ++ (f ++ ('\n' :: restT)) by simp]
    exact matchHeaderAt_ws_field_none ['\n'] f f ('\n' :: restT) (by decide)
      ⟨hne', hstrip, hhash⟩ ⟨[], rfl⟩ hne' (Or.inr ⟨restT, rfl⟩)
  rw [List.cons_append] at h2
  injection h2 with hp2 h3
  have hflag_contra : pre = f → False := by
    intro hpref
    obtain ⟨cl, hcl, hclws⟩ :=
      getLast_not_ws_of_stripRight f (pyStripLeft_eq_self_parts f hstrip).2 hne'
    rw [lsFlag_cons, lsFlag_cons, hpref, lsFlag_eq_of_getLast _ f cl hcl] at hflg
    rw [of_decide_eq_true hflg] at hclws
    exact absurd hclws (by decide)
  rcases List.append_eq_append_iff.mp h3 with ⟨a', ha1, ha2⟩ | ⟨c', hc1, hc2⟩
  · -- pre = f ++ a', ['\n'] = a' ++ suf
    cases a' with
    | nil =>
      exact absurd (by simpa using ha1) hflag_contra
    | cons a1 a2 =>
      rw [List.cons_append] at ha2
      injection ha2 with ha2a ha2b
      rcases List.append_eq_nil.mp ha2b.symm with ⟨-, hsufnil⟩
      exact absurd hsufnil hne
  · -- f = pre ++ c', suf = c' ++ ['\n']
    cases c' with
    | nil =>
      exact absurd (by simpa using hc1.symm) hflag_contra
    | cons d ds =>
      rw [hc2]
      rw [show ((d :: ds ++ ['\n']) ++ restT : PyStr) =
        [] ++ ((d :: ds) ++ ('\n' :: restT)) by simp]
      exact matchHeaderAt_ws_field_none [] f (d :: ds) ('\n' :: restT)
        (by intro x hx; simp at hx) ⟨hne', hstrip, hhash⟩ ⟨pre, hc1⟩ (by simp)
        (Or.inr ⟨restT, rfl⟩)

/-- The no-match hypothesis of `splitLoop_consume` for the final content
region `"\n\n" ++ f` with nothing after it. -/
theorem consume_hyp_final (f : PyStr) (hg : goodField f) :
    ∀ pre suf, ('\n' :: '\n' :: f : PyStr) = pre ++ suf → suf ≠ [] →
      lsFlag false pre = true → matchHeaderAt (suf ++ []) = none := by
  intro pre suf heq hne hflg
  obtain ⟨hne', hstrip, hhash⟩ := hg
  rcases pre with _ | ⟨p1, pre⟩
  · simp [lsFlag] at hflg
  rw [List.cons_append] at heq
  injection heq with hp1 h2
  rcases pre with _ | ⟨p2, pre⟩
  · rw [List.nil_append] at h2
    rw [← h2]
    rw [show (('\n' :: f) ++ [] : PyStr) = ['\n'] ++ (f ++ []) by simp]
    exact matchHeaderAt_ws_field_none ['\n'] f f [] (by decide)
      ⟨hne', hstrip, hhash⟩ ⟨[], rfl⟩ hne' (Or.inl rfl)
  rw [List.cons_append] at h2
  injection h2 with hp2 h3
  rw [show (suf ++ [] : PyStr) = [] ++ (suf ++ []) by simp]
  exact matchHeaderAt_ws_field_none [] f suf [] (by intro x hx; simp at hx)
    ⟨hne', hstrip, hhash⟩ ⟨pre, h3⟩ hne (Or.inl rfl)

/-! ## The assembler's output, segmented -/

theorem format_parts (f1 f2 f3 f4 : PyStr)
    (h1 : pyStrip f1 = f1) (h2 : pyStrip f2 = f2) (h3 : pyStrip f3 = f3)
    (h4 : pyStrip f4 = f4) :
    format_review_dict_to_text ⟨f1, f2, f3, f4⟩ =
      REVIEW_SECTION_SUMMARY ++ '\n' :: '\n' :: (f1 ++ '\n' :: '\n' ::
        (REVIEW_SECTION_STRENGTHS ++ '\n' :: '\n' :: (f2 ++ '\n' :: '\n' ::
        (REVIEW_SECTION_WEAKNESSES ++ '\n' :: '\n' :: (f3 ++ '\n' :: '\n' ::
        (REVIEW_SECTION_RECOMMENDATION ++ '\n' :: '\n' :: f4)))))) := by
  have hS : pyStrip REVIEW_SECTION_SUMMARY = REVIEW_SECTION_SUMMARY := by decide
  have hT : pyStrip REVIEW_SECTION_STRENGTHS = REVIEW_SECTION_STRENGTHS := by decide
  have hW : pyStrip REVIEW_SECTION_WEAKNESSES = REVIEW_SECTION_WEAKNESSES := by decide
  have hR : pyStrip REVIEW_SECTION_RECOMMENDATION = REVIEW_SECTION_RECOMMENDATION := by
    decide
  have hnn : ("\n\n".toList : PyStr) = ['\n', '\n'] := rfl
  simp [format_review_dict_to_text, List.intercalate, List.intersperse, h1, h2, h3, h4,
    hS, hT, hW, hR, hnn, List.append_assoc]

/-- Splitting the assembler's output, for good fields: the empty
leading part, then the four canonical headers as captured delimiters
alternating with the content regions between them. -/
theorem pySplitHeaders_format (f1 f2 f3 f4 : PyStr)
    (hg1 : goodField f1) (hg2 : goodField f2) (hg3 : goodField f3)
    (hg4 : goodField f4) :
    pySplitHeaders (format_review_dict_to_text ⟨f1, f2, f3, f4⟩) =
      [[], REVIEW_SECTION_SUMMARY, '\n' :: '\n' :: (f1 ++ ['\n']),
       REVIEW_SECTION_STRENGTHS, '\n' :: '\n' :: (f2 ++ ['\n']),
       REVIEW_SECTION_WEAKNESSES, '\n' :: '\n' :: (f3 ++ ['\n']),
       REVIEW_SECTION_RECOMMENDATION, '\n' :: '\n' :: f4] := by
  rw [pySplitHeaders, format_parts f1 f2 f3 f4 hg1.2.1 hg2.2.1 hg3.2.1 hg4.2.1]
  set B4 : PyStr := REVIEW_SECTION_RECOMMENDATION ++ '\n' :: '\n' :: f4 with hB4
  set B3 : PyStr :=
    REVIEW_SECTION_WEAKNESSES ++ '\n' :: '\n' :: (f3 ++ '\n' :: '\n' :: B4) with hB3
  set B2 : PyStr :=
    REVIEW_SECTION_STRENGTHS ++ '\n' :: '\n' :: (f2 ++ '\n' :: '\n' :: B3) with hB2
  -- the four header matches
  have hm1 : matchHeaderAt
      (REVIEW_SECTION_SUMMARY ++ '\n' :: '\n' :: (f1 ++ '\n' :: '\n' :: B2)) =
      some (REVIEW_SECTION_SUMMARY, 10) := by
    have h := matchHeaderAt_header [] 'S' ("ummary".toList)
      ('\n' :: (f1 ++ '\n' :: '\n' :: B2)) (by simp) (by decide) (by decide)
    rw [show (([] : PyStr) ++ '#' :: '#' :: ' ' :: 'S' ::
        ("ummary".toList ++ '\n' :: '\n' :: (f1 ++ '\n' :: '\n' :: B2))) =
      REVIEW_SECTION_SUMMARY ++ '\n' :: '\n' :: (f1 ++ '\n' :: '\n' :: B2) from rfl,
      show ('#' :: '#' :: ' ' :: 'S' :: "ummary".toList : PyStr) =
        REVIEW_SECTION_SUMMARY from rfl,
      show ([] : PyStr).length + ("ummary".toList).length + 4 = 10 from by decide] at h
    exact h
  have hm2 : matchHeaderAt ('\n' :: B2) = some (REVIEW_SECTION_STRENGTHS, 13) := by
    have h := matchHeaderAt_header ['\n'] 'S' ("trengths".toList)
      ('\n' :: (f2 ++ '\n' :: '\n' :: B3)) (by decide) (by decide) (by decide)
    rw [show ((['\n'] : PyStr) ++ '#' :: '#' :: ' ' :: 'S' ::
        ("trengths".toList ++ '\n' :: '\n' :: (f2 ++ '\n' :: '\n' :: B3))) =
      '\n' :: B2 from by rw [hB2]; rfl,
      show ('#' :: '#' :: ' ' :: 'S' :: "trengths".toList : PyStr) =
        REVIEW_SECTION_STRENGTHS from rfl,
      show (['\n'] : PyStr).length + ("trengths".toList).length + 4 = 13 from by decide] at h
    exact h
  have hm3 : matchHeaderAt ('\n' :: B3) = some (REVIEW_SECTION_WEAKNESSES, 38) := by
    have h := matchHeaderAt_header ['\n'] 'W'
      ("eaknesses / Areas for Improvement".toList)
      ('\n' :: (f3 ++ '\n' :: '\n' :: B4)) (by decide) (by decide) (by decide)
    rw [show ((['\n'] : PyStr) ++ '#' :: '#' :: ' ' :: 'W' ::
        ("eaknesses / Areas for Improvement".toList ++
          '\n' :: '\n' :: (f3 ++ '\n' :: '\n' :: B4))) =
      '\n' :: B3 from by rw [hB3]; rfl,
      show ('#' :: '#' :: ' ' :: 'W' ::
          "eaknesses / Areas for Improvement".toList : PyStr) =
        REVIEW_SECTION_WEAKNESSES from rfl,
      show (['\n'] : PyStr).length +
        ("eaknesses / Areas for Improvement".toList).length + 4 = 38 from by decide] at h
    exact h
  have hm4 : matchHeaderAt ('\n' :: B4) = some (REVIEW_SECTION_RECOMMENDATION, 18) := by
    have h := matchHeaderAt_header ['\n'] 'R' ("ecommendation".toList)
      ('\n' :: f4) (by decide) (by decide) (by decide)
    rw [show ((['\n'] : PyStr) ++ '#' :: '#' :: ' ' :: 'R' ::
        ("ecommendation".toList ++ '\n' :: '\n' :: f4)) =
      '\n' :: B4 from by rw [hB4]; rfl,
      show ('#' :: '#' :: ' ' :: 'R' :: "ecommendation".toList : PyStr) =
        REVIEW_SECTION_RECOMMENDATION from rfl,
      show (['\n'] : PyStr).length + ("ecommendation".toList).length + 4 = 18
        from by decide] at h
    exact h
  -- step 1: match the Summary header at position 0
  rw [splitLoop_match
    (REVIEW_SECTION_SUMMARY ++ '\n' :: '\n' :: (f1 ++ '\n' :: '\n' :: B2)).length
    (REVIEW_SECTION_SUMMARY ++ '\n' :: '\n' :: (f1 ++ '\n' :: '\n' :: B2)) []
    REVIEW_SECTION_SUMMARY 10 hm1]
  rw [show (REVIEW_SECTION_SUMMARY ++ '\n' :: '\n' :: (f1 ++ '\n' :: '\n' :: B2)).drop 10 =
    '\n' :: '\n' :: (f1 ++ '\n' :: '\n' :: B2) from by
      rw [show (10 : Nat) = REVIEW_SECTION_SUMMARY.length from by decide, List.drop_left]]
  -- step 2: consume the first content region
  rw [show (REVIEW_SECTION_SUMMARY ++ '\n' :: '\n' :: (f1 ++ '\n' :: '\n' :: B2)).length =
    ('\n' :: '\n' :: (f1 ++ ['\n']) : PyStr).length + (('\n' :: B2 : PyStr).length + 10)
    from by
      simp [List.length_append, show REVIEW_SECTION_SUMMARY.length = 10 from by decide]
      omega]
  rw [show ('\n' :: '\n' :: (f1 ++ '\n' :: '\n' :: B2) : PyStr) =
    ('\n' :: '\n' :: (f1 ++ ['\n'])) ++ ('\n' :: B2) from by simp]
  rw [splitLoop_consume ('\n' :: '\n' :: (f1 ++ ['\n'])) ('\n' :: B2)
    (('\n' :: B2 : PyStr).length + 10) false [] (consume_hyp_mid f1 ('\n' :: B2) hg1)]
  rw [show lsFlag false ('\n' :: '\n' :: (f1 ++ ['\n'])) = true from by
    rw [show ('\n' :: '\n' :: (f1 ++ ['\n']) : PyStr) = ('\n' :: '\n' :: f1) ++ ['\n']
      from by simp]
    exact lsFlag_append_newline false ('\n' :: '\n' :: f1)]
  -- step 3: match the Strengths header
  rw [show ('\n' :: B2 : PyStr).length + 10 = (('\n' :: B2 : PyStr).length + 9) + 1
    from by omega]
  rw [splitLoop_match (('\n' :: B2 : PyStr).length + 9) ('\n' :: B2) _
    REVIEW_SECTION_STRENGTHS 13 hm2]
  rw [show ('\n' :: B2 : PyStr).drop 13 = '\n' :: '\n' :: (f2 ++ '\n' :: '\n' :: B3)
    from by
      rw [show ('\n' :: B2 : PyStr) =
        ('\n' :: REVIEW_SECTION_STRENGTHS) ++ ('\n' :: '\n' :: (f2 ++ '\n' :: '\n' :: B3))
        from by rw [hB2]; rfl]
      rw [show (13 : Nat) = ('\n' :: REVIEW_SECTION_STRENGTHS : PyStr).length
        from by decide, List.drop_left]]
  -- step 4: consume the second content region
  rw [show ('\n' :: B2 : PyStr).length + 9 =
    ('\n' :: '\n' :: (f2 ++ ['\n']) : PyStr).length + (('\n' :: B3 : PyStr).length + 22)
    from by
      rw [hB2]
      simp [List.length_append, show REVIEW_SECTION_STRENGTHS.length = 12 from by decide]
      omega]
  rw [show ('\n' :: '\n' :: (f2 ++ '\n' :: '\n' :: B3) : PyStr) =
    ('\n' :: '\n' :: (f2 ++ ['\n'])) ++ ('\n' :: B3) from by simp]
  rw [splitLoop_consume ('\n' :: '\n' :: (f2 ++ ['\n'])) ('\n' :: B3)
    (('\n' :: B3 : PyStr).length + 22) false [] (consume_hyp_mid f2 ('\n' :: B3) hg2)]
  rw [show lsFlag false ('\n' :: '\n' :: (f2 ++ ['\n'])) = true from by
    rw [show ('\n' :: '\n' :: (f2 ++ ['\n']) : PyStr) = ('\n' :: '\n' :: f2) ++ ['\n']
      from by simp]
    exact lsFlag_append_newline false ('\n' :: '\n' :: f2)]
  -- step 5: match the Weaknesses header
  rw [show ('\n' :: B3 : PyStr).length + 22 = (('\n' :: B3 : PyStr).length + 21) + 1
    from by omega]
  rw [splitLoop_match (('\n' :: B3 : PyStr).length + 21) ('\n' :: B3) _
    REVIEW_SECTION_WEAKNESSES 38 hm3]
  rw [show ('\n' :: B3 : PyStr).drop 38 = '\n' :: '\n' :: (f3 ++ '\n' :: '\n' :: B4)
    from by
      rw [show ('\n' :: B3 : PyStr) =
        ('\n' :: REVIEW_SECTION_WEAKNESSES) ++ ('\n' :: '\n' :: (f3 ++ '\n' :: '\n' :: B4))
        from by rw [hB3]; rfl]
      rw [show (38 : Nat) = ('\n' :: REVIEW_SECTION_WEAKNESSES : PyStr).length
        from by decide, List.drop_left]]
  -- step 6: consume the third content region
  rw [show ('\n' :: B3 : PyStr).length + 21 =
    ('\n' :: '\n' :: (f3 ++ ['\n']) : PyStr).length + (('\n' :: B4 : PyStr).length + 59)
    from by
      rw [hB3]
      simp [List.length_append, show REVIEW_SECTION_WEAKNESSES.length = 37 from by decide]
      omega]
  rw [show ('\n' :: '\n' :: (f3 ++ '\n' :: '\n' :: B4) : PyStr) =
    ('\n' :: '\n' :: (f3 ++ ['\n'])) ++ ('\n' :: B4) from by simp]
  rw [splitLoop_consume ('\n' :: '\n' :: (f3 ++ ['\n'])) ('\n' :: B4)
    (('\n' :: B4 : PyStr).length + 59) false [] (consume_hyp_mid f3 ('\n' :: B4) hg3)]
  rw [show lsFlag false ('\n' :: '\n' :: (f3 ++ ['\n'])) = true from by
    rw [show ('\n' :: '\n' :: (f3 ++ ['\n']) : PyStr) = ('\n' :: '\n' :: f3) ++ ['\n']
      from by simp]
    exact lsFlag_append_newline false ('\n' :: '\n' :: f3)]
  -- step 7: match the Recommendation header
  rw [show ('\n' :: B4 : PyStr).length + 59 = (('\n' :: B4 : PyStr).length + 58) + 1
    from by omega]
  rw [splitLoop_match (('\n' :: B4 : PyStr).length + 58) ('\n' :: B4) _
    REVIEW_SECTION_RECOMMENDATION 18 hm4]
  rw [show ('\n' :: B4 : PyStr).drop 18 = '\n' :: '\n' :: f4 from by
    rw [show ('\n' :: B4 : PyStr) =
      ('\n' :: REVIEW_SECTION_RECOMMENDATION) ++ ('\n' :: '\n' :: f4)
      from by rw [hB4]; rfl]
    rw [show (18 : Nat) = ('\n' :: REVIEW_SECTION_RECOMMENDATION : PyStr).length
      from by decide, List.drop_left]]
  -- step 8: consume the final content region, then finish
  rw [show ('\n' :: B4 : PyStr).length + 58 = ('\n' :: '\n' :: f4 : PyStr).length + 76
    from by
      rw [hB4]
      simp [List.length_append,
        show REVIEW_SECTION_RECOMMENDATION.length = 17 from by decide]
      omega]
  rw [show splitLoop (('\n' :: '\n' :: f4 : PyStr).length + 76) ('\n' :: '\n' :: f4) false
      ([] : PyStr) =
    splitLoop (('\n' :: '\n' :: f4 : PyStr).length + 76) (('\n' :: '\n' :: f4) ++ []) false
      ([] : PyStr) from by rw [List.append_nil]]
  rw [splitLoop_consume ('\n' :: '\n' :: f4) [] 76 false []
    (consume_hyp_final f4 hg4)]
  rw [show (76 : Nat) = 75 + 1 from by omega, splitLoop_nil]
  simp

/-! ## Processing the split output of the assembler -/

theorem pyStrip_content_region (f : PyStr) (hf : pyStrip f = f) :
    pyStrip ('\n' :: '\n' :: (f ++ ['\n'])) = f := by
  rw [show ('\n' :: '\n' :: (f ++ ['\n']) : PyStr) = ['\n', '\n'] ++ f ++ ['\n'] from by
    simp]
  exact pyStrip_sandwich ['\n', '\n'] f ['\n'] (by decide) (by decide) hf

theorem pyStrip_final_region (f : PyStr) (hf : pyStrip f = f) :
    pyStrip ('\n' :: '\n' :: f) = f := by
  rw [show ('\n' :: '\n' :: f : PyStr) = ['\n', '\n'] ++ f ++ [] from by simp]
  exact pyStrip_sandwich ['\n', '\n'] f [] (by decide) (by simp) hf

theorem matchHeaderAt_goodField (f : PyStr) (hg : goodField f) :
    matchHeaderAt f = none := by
  have h := matchHeaderAt_ws_field_none [] f f [] (by simp) hg ⟨[], rfl⟩ hg.1
    (Or.inl rfl)
  simpa using h

theorem accumulatedSections_format (f1 f2 f3 f4 : PyStr)
    (hg1 : goodField f1) (hg2 : goodField f2) (hg3 : goodField f3)
    (hg4 : goodField f4) :
    accumulatedSections (format_review_dict_to_text ⟨f1, f2, f3, f4⟩) =
      ⟨f1 ++ ['\n'], f2 ++ ['\n'], f3 ++ ['\n'], f4 ++ ['\n']⟩ := by
  have hH1 : isHeaderPart REVIEW_SECTION_SUMMARY = true := by decide
  have hK1 : headerToKey (pyStrip REVIEW_SECTION_SUMMARY) = some SectionKey.summary := by
    decide
  have hH2 : isHeaderPart REVIEW_SECTION_STRENGTHS = true := by decide
  have hK2 : headerToKey (pyStrip REVIEW_SECTION_STRENGTHS) =
      some SectionKey.strengths := by decide
  have hH3 : isHeaderPart REVIEW_SECTION_WEAKNESSES = true := by decide
  have hK3 : headerToKey (pyStrip REVIEW_SECTION_WEAKNESSES) =
      some SectionKey.weaknesses := by decide
  have hH4 : isHeaderPart REVIEW_SECTION_RECOMMENDATION = true := by decide
  have hK4 : headerToKey (pyStrip REVIEW_SECTION_RECOMMENDATION) =
      some SectionKey.recommendation := by decide
  have hs1 : pyStrip ('\n' :: '\n' :: (f1 ++ ['\n'])) = f1 :=
    pyStrip_content_region f1 hg1.2.1
  have hs2 : pyStrip ('\n' :: '\n' :: (f2 ++ ['\n'])) = f2 :=
    pyStrip_content_region f2 hg2.2.1
  have hs3 : pyStrip ('\n' :: '\n' :: (f3 ++ ['\n'])) = f3 :=
    pyStrip_content_region f3 hg3.2.1
  have hs4 : pyStrip ('\n' :: '\n' :: f4) = f4 := pyStrip_final_region f4 hg4.2.1
  have hc1 : isHeaderPart ('\n' :: '\n' :: (f1 ++ ['\n'])) = false := by
    rw [isHeaderPart, hs1, matchHeaderAt_goodField f1 hg1]
    rfl
  have hc2 : isHeaderPart ('\n' :: '\n' :: (f2 ++ ['\n'])) = false := by
    rw [isHeaderPart, hs2, matchHeaderAt_goodField f2 hg2]
    rfl
  have hc3 : isHeaderPart ('\n' :: '\n' :: (f3 ++ ['\n'])) = false := by
    rw [isHeaderPart, hs3, matchHeaderAt_goodField f3 hg3]
    rfl
  have hc4 : isHeaderPart ('\n' :: '\n' :: f4) = false := by
    rw [isHeaderPart, hs4, matchHeaderAt_goodField f4 hg4]
    rfl
  unfold accumulatedSections
  rw [pySplitHeaders_format f1 f2 f3 f4 hg1 hg2 hg3 hg4]
  simp only [processParts, hH1, hK1, hH2, hK2, hH3, hK3, hH4, hK4, hc1, hc2, hc3, hc4,
    hs1, hs2, hs3, hs4, addToKey, if_true, if_false, Bool.false_eq_true,
    reduceIte]
  rfl

/-- C2 counterexample: the claim quantifies over records whose fields
are merely non-empty after trimming; for a record whose summary carries
surrounding whitespace (`" S "`), the assembler trims it, so parsing
the assembled text returns the trimmed record, not the original one. -/
theorem c2_counterexample :
    parse_review_text (format_review_dict_to_text
        ⟨" S ".toList, "T".toList, "W".toList, "Accept".toList⟩) ≠
      some ⟨" S ".toList, "T".toList, "W".toList, "Accept".toList⟩ := by decide

/-- C2 (amended): round trip — for every review record `r` whose four
fields are non-empty, equal to their own trim, and free of the
substring `##`, and whose recommendation is one of the four valid enum
values, parsing the text produced by the assembler yields a record
equal to `r`. -/
theorem c2_roundtrip (f1 f2 f3 f4 : PyStr)
    (hg1 : goodField f1) (hg2 : goodField f2) (hg3 : goodField f3)
    (h4 : f4 ∈ REVIEW_RECOMMENDATION_OPTIONS) :
    parse_review_text (format_review_dict_to_text ⟨f1, f2, f3, f4⟩) =
      some ⟨f1, f2, f3, f4⟩ := by
  have hg4 : goodField f4 := by
    have hall : ∀ x ∈ REVIEW_RECOMMENDATION_OPTIONS, goodField x := by decide
    exact hall f4 h4
  have hacc := accumulatedSections_format f1 f2 f3 f4 hg1 hg2 hg3 hg4
  have hfield : ∀ f : PyStr, pyStrip f = f → pyStrip (f ++ ['\n']) = f := by
    intro f hf
    rw [show (f ++ ['\n'] : PyStr) = [] ++ f ++ ['\n'] from by simp]
    exact pyStrip_sandwich [] f ['\n'] (by simp) (by decide) hf
  have hne : pyStrip (format_review_dict_to_text ⟨f1, f2, f3, f4⟩) ≠ [] := by
    intro hnil
    have hall := (pyStrip_eq_nil_iff _).mp hnil
    have hmem : '#' ∈ format_review_dict_to_text ⟨f1, f2, f3, f4⟩ := by
      rw [format_parts f1 f2 f3 f4 hg1.2.1 hg2.2.1 hg3.2.1 hg4.2.1]
      exact List.mem_append_left _ (by decide)
    have := hall '#' hmem
    exact absurd this (by decide)
  rw [parse_review_text_eq, hacc]
  simp only [if_neg hne]
  rw [hfield f1 hg1.2.1, hfield f2 hg2.2.1, hfield f3 hg3.2.1, hfield f4 hg4.2.1]
  rw [if_neg hg4.1]

theorem c2_roundtrip_witness :
    parse_review_text (format_review_dict_to_text
        ⟨"A solid contribution.".toList, "- clear writing".toList,
          "- small evaluation".toList, "Accept".toList⟩) =
      some ⟨"A solid contribution.".toList, "- clear writing".toList,
        "- small evaluation".toList, "Accept".toList⟩ :=
  c2_roundtrip ("A solid contribution.".toList) ("- clear writing".toList)
    ("- small evaluation".toList) ("Accept".toList)
    (by decide) (by decide) (by decide) (by decide)

/-! ## Characterizing the boundary search -/

theorem find?_range_eq_none_iff (q : Nat → Bool) (n : Nat) :
    List.find? q (List.range n) = none ↔ ∀ k < n, q k = false := by
  rw [List.find?_eq_none]
  constructor
  · intro h k hk
    have := h k (List.mem_range.mpr hk)
    cases hv : q k with
    | false => rfl
    | true => exact absurd hv this
  · intro h x hx
    rw [h x (List.mem_range.mp hx)]
    simp

theorem find?_range_eq_some_iff (q : Nat → Bool) (n : Nat) :
    ∀ m, List.find? q (List.range n) = some m ↔
      m < n ∧ q m = true ∧ ∀ k < m, q k = false := by
  induction n with
  | zero =>
    intro m
    simp [List.range_zero]
  | succ n ih =>
    intro m
    rw [List.range_succ, List.find?_append]
    cases hf : List.find? q (List.range n) with
    | some a =>
      obtain ⟨ha1, ha2, ha3⟩ := (ih a).mp hf
      rw [show (some a).or (List.find? q [n]) = some a from rfl]
      constructor
      · intro h
        injection h with h
        subst h
        exact ⟨Nat.lt_succ_of_lt ha1, ha2, ha3⟩
      · rintro ⟨hm1, hm2, hm3⟩
        have : a = m := by
          rcases Nat.lt_trichotomy a m with hlt | heq | hgt
          · exact absurd ha2 (by rw [hm3 a hlt]; simp)
          · exact heq
          · exact absurd hm2 (by rw [ha3 m hgt]; simp)
        rw [this]
    | none =>
      have hnone := (find?_range_eq_none_iff q n).mp hf
      rw [Option.none_or]
      cases hq : q n with
      | true =>
        rw [show List.find? q [n] = some n from by rw [List.find?_cons, hq]]
        constructor
        · intro h
          injection h with h
          subst h
          exact ⟨Nat.lt_succ_self n, hq, hnone⟩
        · rintro ⟨hm1, hm2, hm3⟩
          have : m = n := by
            rcases Nat.lt_succ_iff_lt_or_eq.mp hm1 with hlt | heq
            · exact absurd hm2 (by rw [hnone m hlt]; simp)
            · exact heq
          rw [this]
      | false =>
        rw [show List.find? q [n] = none from by rw [List.find?_cons, hq]; rfl]
        constructor
        · intro h
          cases h
        · rintro ⟨hm1, hm2, hm3⟩
          rcases Nat.lt_succ_iff_lt_or_eq.mp hm1 with hlt | heq
          · exact absurd hm2 (by rw [hnone m hlt]; simp)
          · rw [heq] at hm2
            exact absurd hm2 (by rw [hq]; simp)

theorem findBoundaryFrom_eq_none_iff (test : PyStr → Nat → Bool) (s : PyStr) (pos : Nat) :
    findBoundaryFrom test s pos = none ↔
      ∀ p, pos ≤ p → p < s.length → test s p = false := by
  rw [findBoundaryFrom, find?_range_eq_none_iff]
  constructor
  · intro h p h1 h2
    have := h p h2
    rw [Bool.and_eq_false_iff] at this
    rcases this with h3 | h3
    · exact absurd h1 (by simpa using h3)
    · exact h3
  · intro h k hk
    rw [Bool.and_eq_false_iff]
    by_cases hpos : pos ≤ k
    · exact Or.inr (h k hpos hk)
    · exact Or.inl (by simpa using hpos)

theorem findBoundaryFrom_eq_some_iff (test : PyStr → Nat → Bool) (s : PyStr)
    (pos m : Nat) :
    findBoundaryFrom test s pos = some m ↔
      pos ≤ m ∧ m < s.length ∧ test s m = true ∧
        ∀ p, pos ≤ p → p < m → test s p = false := by
  rw [findBoundaryFrom, find?_range_eq_some_iff]
  constructor
  · rintro ⟨h1, h2, h3⟩
    rw [Bool.and_eq_true] at h2
    refine ⟨by simpa using h2.1, h1, h2.2, ?_⟩
    intro p hp1 hp2
    have := h3 p hp2
    rw [Bool.and_eq_false_iff] at this
    rcases this with h4 | h4
    · exact absurd hp1 (by simpa using h4)
    · exact h4
  · rintro ⟨h1, h2, h3, h4⟩
    refine ⟨h2, by rw [Bool.and_eq_true]; exact ⟨by simpa using h1, h3⟩, ?_⟩
    intro k hk
    rw [Bool.and_eq_false_iff]
    by_cases hpos : pos ≤ k
    · exact Or.inr (h4 k hpos hk)
    · exact Or.inl (by simpa using hpos)

/-! ## Stripped prefixes of a text -/

theorem pyStripRight_decomp (u : PyStr) :
    ∃ w, u = pyStripRight u ++ w ∧ ∀ c ∈ w, pyWhitespace c = true := by
  refine ⟨(u.reverse.takeWhile pyWhitespace).reverse, ?_, ?_⟩
  · rw [pyStripRight]
    conv_lhs => rw [← List.reverse_reverse u,
      ← List.takeWhile_append_dropWhile (p := pyWhitespace) (l := u.reverse)]
    rw [List.reverse_append]
  · intro c hc
    rw [List.mem_reverse] at hc
    exact List.mem_takeWhile_imp hc

theorem get?_take_agree (x : PyStr) (n i : Nat) (hi : i < n) :
    (x.take n).get? i = x.get? i := by
  rw [List.get?_eq_getElem?, List.get?_eq_getElem?, List.getElem?_take, if_pos hi]

theorem pyStrip_take_spec (c : Char) (t : PyStr) (hc : pyWhitespace c = false)
    (e : Nat) (he : 1 ≤ e) :
    ∃ n, pyStrip ((c :: t).take e) = (c :: t).take n ∧ n ≤ e ∧ n ≤ (c :: t).length ∧
      ∀ i, n ≤ i → i < min e (c :: t).length →
        ∀ d, (c :: t).get? i = some d → pyWhitespace d = true := by
  have hu' : (c :: t).take e = c :: t.take (e - 1) := by
    cases e with
    | zero => omega
    | succ e => simp
  have hL : pyStripLeft ((c :: t).take e) = (c :: t).take e := by
    rw [hu']
    exact pyStripLeft_eq_self_of_head _ _ hc
  have hstrip : pyStrip ((c :: t).take e) = pyStripRight ((c :: t).take e) := by
    rw [pyStrip, hL]
  obtain ⟨w, hw1, hw2⟩ := pyStripRight_decomp ((c :: t).take e)
  have hyu : pyStripRight ((c :: t).take e) <+: (c :: t).take e := pyStripRight_isPrefix _
  have hlen_u : ((c :: t).take e).length ≤ e := by
    rw [List.length_take]
    omega
  have hylen : (pyStripRight ((c :: t).take e)).length ≤ ((c :: t).take e).length :=
    hyu.length_le
  refine ⟨(pyStripRight ((c :: t).take e)).length, ?_, by omega, ?_, ?_⟩
  · rw [hstrip]
    have hx := List.prefix_iff_eq_take.mp hyu
    conv_lhs => rw [hx]
    rw [List.take_take, Nat.min_eq_left (le_trans hylen hlen_u)]
  · have : ((c :: t).take e).length ≤ (c :: t).length := by
      rw [List.length_take]
      omega
    omega
  · intro i hi1 hi2 d hd
    have hiu : i < ((c :: t).take e).length := by
      rw [List.length_take]
      omega
    have hud : ((c :: t).take e).get? i = some d := by
      rw [get?_take_agree _ _ _ (by omega)]
      exact hd
    rw [hw1, List.get?_eq_getElem?, List.getElem?_append,
      if_neg (by omega)] at hud
    exact hw2 d (List.get?_mem (by rw [List.get?_eq_getElem?]; exact hud))

/-! ## Transferring boundary matches from a stripped prefix to the text -/

theorem get?_drop (l : List Char) (i j : Nat) :
    (l.drop i).get? j = l.get? (i + j) := by
  rw [List.get?_eq_getElem?, List.get?_eq_getElem?, List.getElem?_drop]

theorem ciPrefixAt_length (pat u : PyStr) (h : ciPrefixAt pat u = true) :
    pat.length ≤ u.length := by
  rw [ciPrefixAt] at h
  have h2 := of_decide_eq_true h
  have h3 := congrArg List.length h2
  simp only [pyLower, List.length_map, List.length_take] at h3
  omega

theorem ciPrefixAt_of_prefix (pat u v : PyStr) (huv : u <+: v)
    (h : ciPrefixAt pat u = true) : ciPrefixAt pat v = true := by
  have hlen := ciPrefixAt_length pat u h
  rw [ciPrefixAt] at h ⊢
  have h2 := of_decide_eq_true h
  apply decide_eq_true
  have hu := List.prefix_iff_eq_take.mp huv
  have htakes : u.take pat.length = v.take pat.length := by
    conv_lhs => rw [hu]
    rw [List.take_take, Nat.min_eq_left hlen]
  rw [← htakes]
  exact h2

theorem takeWhile_prefix_eq (p : Char → Bool) :
    ∀ (u v : List Char), u <+: v → u.takeWhile p ≠ u →
      u.takeWhile p = v.takeWhile p := by
  intro u
  induction u with
  | nil =>
    intro v _ hne
    exact absurd rfl hne
  | cons c u ih =>
    intro v huv hne
    obtain ⟨w, hw⟩ := huv
    cases hp : p c with
    | false =>
      rw [← hw, List.cons_append, List.takeWhile_cons, List.takeWhile_cons, hp]
      simp
    | true =>
      have hne' : u.takeWhile p ≠ u := by
        intro hh
        apply hne
        rw [List.takeWhile_cons, hp]
        simp [hh]
      rw [← hw, List.cons_append, List.takeWhile_cons, List.takeWhile_cons, hp]
      simp only [if_true]
      rw [ih (u ++ w) ⟨w, rfl⟩ hne']

theorem lineStartAt_take (x : PyStr) (n q : Nat) (hq : q < n) :
    lineStartAt (x.take n) q = lineStartAt x q := by
  rw [lineStartAt, lineStartAt, get?_take_agree _ _ _ (by omega)]

theorem drop_take_isPrefix (x : PyStr) (n q : Nat) : (x.take n).drop q <+: x.drop q := by
  rw [List.drop_take]
  exact List.take_prefix _ _

theorem prefix_drop (u v : PyStr) (h : u <+: v) (k : Nat) : u.drop k <+: v.drop k := by
  have hu := List.prefix_iff_eq_take.mp h
  rw [hu, List.drop_take]
  exact List.take_prefix _ _

theorem anchoredAt_take (lit : PyStr) (x : PyStr) (n q : Nat) (hlit : lit ≠ [])
    (hq : q < n) (h : anchoredAt lit (x.take n) q = true) :
    anchoredAt lit x q = true := by
  simp only [anchoredAt, Bool.and_eq_true] at h ⊢
  obtain ⟨hls, hci⟩ := h
  refine ⟨by rw [← lineStartAt_take x n q hq]; exact hls, ?_⟩
  have hpre : (x.take n).drop q <+: x.drop q := drop_take_isPrefix x n q
  have hA : ((x.take n).drop q).takeWhile pyWhitespace ≠ (x.take n).drop q := by
    intro hh
    rw [hh, List.drop_length] at hci
    have h0 := ciPrefixAt_length lit [] hci
    simp only [List.length_nil, Nat.le_zero, List.length_eq_zero] at h0
    exact hlit h0
  have hrun := takeWhile_prefix_eq pyWhitespace _ _ hpre hA
  rw [← hrun]
  exact ciPrefixAt_of_prefix lit _ _ (prefix_drop _ _ hpre _) hci

theorem stepByStepAt_take (x : PyStr) (n q : Nat) (hn : n ≤ x.length) (hq : q < n)
    (hedge : q + 12 = n → nonWordAt x n ∨ lineStartAt x n = true)
    (h : stepByStepAt (x.take n) q = true) : stepByStepAt x q = true := by
  simp only [stepByStepAt, Bool.and_eq_true] at h
  obtain ⟨⟨hleft, hci⟩, hright⟩ := h
  have hcil := ciPrefixAt_length _ _ hci
  have hq12 : q + 12 ≤ n := by
    rw [List.length_drop, List.length_take] at hcil
    have : ("step-by-step".toList).length = 12 := by decide
    omega
  have hcix : ciPrefixAt ("step-by-step".toList) (x.drop q) = true :=
    ciPrefixAt_of_prefix _ _ _ (drop_take_isPrefix x n q) hci
  rcases Nat.lt_or_ge (q + 12) n with hlt | hge
  · -- boundary character strictly inside the prefix: direct agreement
    simp only [stepByStepAt, Bool.and_eq_true]
    refine ⟨⟨?_, hcix⟩, ?_⟩
    · rw [show x.get? (q - 1) = (x.take n).get? (q - 1) from
        (get?_take_agree x n (q - 1) (by omega)).symm]
      exact hleft
    · rw [show (x.drop q).get? 12 = ((x.take n).drop q).get? 12 from by
        rw [get?_drop, get?_drop, get?_take_agree x n (q + 12) (by omega)]]
      exact hright
  · have hq12' : q + 12 = n := by omega
    rcases hedge hq12' with hnword | hls
    · -- the character after the prefix is not a word character (or absent)
      simp only [stepByStepAt, Bool.and_eq_true]
      refine ⟨⟨?_, hcix⟩, ?_⟩
      · rw [show x.get? (q - 1) = (x.take n).get? (q - 1) from
          (get?_take_agree x n (q - 1) (by omega)).symm]
        exact hleft
      · rw [get?_drop, hq12']
        cases hxn : x.get? n with
        | none => rfl
        | some d =>
          have hw := hnword d hxn
          simp [hw]
    · -- position n is a line start: x[n-1] = '\n', but the matched text
      -- ends in (a case variant of) 'p' at that very position
      exfalso
      rw [lineStartAt] at hls
      rw [Bool.or_eq_true] at hls
      rcases hls with hn0 | hnl
      · have : n = 0 := by simpa using hn0
        omega
      · have hxn1 : x[n - 1]? = some '\n' := by
          rw [← List.get?_eq_getElem?]
          simpa using hnl
        rw [ciPrefixAt] at hci
        have h2 := of_decide_eq_true hci
        have h11 := congrArg (fun l => l[11]?) h2
        simp only [pyLower, List.getElem?_map] at h11
        rw [show (("step-by-step".toList).length) = 12 from by decide] at h11
        rw [List.getElem?_take, if_pos (by decide)] at h11
        rw [show (((x.take n).drop q)[11]?) = x[q + 11]? from by
          rw [List.getElem?_drop, List.getElem?_take, if_pos (by omega)]] at h11
        rw [show q + 11 = n - 1 from by omega, hxn1] at h11
        rw [show (("step-by-step".toList)[11]?) = some 'p' from by decide] at h11
        rw [show Option.map Char.toLower (some '\n') = some (Char.toLower '\n')
          from rfl] at h11
        injection h11 with h11
        exact absurd h11 (by decide)

theorem noiseAt_take (x : PyStr) (n q : Nat) (hn : n ≤ x.length) (hq : q < n)
    (hedge : q + 12 = n → nonWordAt x n ∨ lineStartAt x n = true)
    (h : noiseAt (x.take n) q = true) : noiseAt x q = true := by
  have hpre : (x.take n).drop q <+: x.drop q := drop_take_isPrefix x n q
  simp only [noiseAt, Bool.or_eq_true] at h ⊢
  rcases h with ((((((((((((h | h) | h) | h) | h) | h) | h) | h) | h) | h) | h) | h) | h)
  · have htr := ciPrefixAt_of_prefix _ _ _ hpre h
    exact Or.inl (Or.inl (Or.inl (Or.inl (Or.inl (Or.inl (Or.inl (Or.inl (Or.inl (Or.inl (Or.inl (Or.inl (htr))))))))))))
  · have htr := ciPrefixAt_of_prefix _ _ _ hpre h
    exact Or.inl (Or.inl (Or.inl (Or.inl (Or.inl (Or.inl (Or.inl (Or.inl (Or.inl (Or.inl (Or.inl (Or.inr (htr))))))))))))
  · have htr := ciPrefixAt_of_prefix _ _ _ hpre h
    exact Or.inl (Or.inl (Or.inl (Or.inl (Or.inl (Or.inl (Or.inl (Or.inl (Or.inl (Or.inl (Or.inr (htr)))))))))))
  · have htr := ciPrefixAt_of_prefix _ _ _ hpre h
    exact Or.inl (Or.inl (Or.inl (Or.inl (Or.inl (Or.inl (Or.inl (Or.inl (Or.inl (Or.inr (htr))))))))))
  · have htr := ciPrefixAt_of_prefix _ _ _ hpre h
    exact Or.inl (Or.inl (Or.inl (Or.inl (Or.inl (Or.inl (Or.inl (Or.inl (Or.inr (htr)))))))))
  · have htr := ciPrefixAt_of_prefix _ _ _ hpre h
    exact Or.inl (Or.inl (Or.inl (Or.inl (Or.inl (Or.inl (Or.inl (Or.inr (htr))))))))
  · have htr := stepByStepAt_take x n q hn hq hedge h
    exact Or.inl (Or.inl (Or.inl (Or.inl (Or.inl (Or.inl (Or.inr (htr)))))))
  · have htr := ciPrefixAt_of_prefix _ _ _ hpre h
    exact Or.inl (Or.inl (Or.inl (Or.inl (Or.inl (Or.inr (htr))))))
  · have htr := ciPrefixAt_of_prefix _ _ _ hpre h
    exact Or.inl (Or.inl (Or.inl (Or.inl (Or.inr (htr)))))
  · have htr := ciPrefixAt_of_prefix _ _ _ hpre h
    exact Or.inl (Or.inl (Or.inl (Or.inr (htr))))
  · have htr := ciPrefixAt_of_prefix _ _ _ hpre h
    exact Or.inl (Or.inl (Or.inr (htr)))
  · have htr := ciPrefixAt_of_prefix _ _ _ hpre h
    exact Or.inl (Or.inr (htr))
  · have htr := anchoredAt_take ("note:".toList) x n q (by decide) hq h
    exact Or.inr (htr)

theorem endBoundaryAt_take (x : PyStr) (n q : Nat) (hn : n ≤ x.length) (hq : q < n)
    (hedge : q + 12 = n → nonWordAt x n ∨ lineStartAt x n = true)
    (h : endBoundaryAt (x.take n) q = true) : endBoundaryAt x q = true := by
  simp only [endBoundaryAt, Bool.or_eq_true] at h ⊢
  rcases h with h | h
  · exact Or.inl (anchoredAt_take ("## ".toList) x n q (by decide) hq h)
  · exact Or.inr (noiseAt_take x n q hn hq hedge h)

theorem fallbackBoundaryAt_take (x : PyStr) (n q : Nat) (hn : n ≤ x.length)
    (hq : q < n) (hedge : q + 12 = n → nonWordAt x n ∨ lineStartAt x n = true)
    (h : fallbackBoundaryAt (x.take n) q = true) : fallbackBoundaryAt x q = true := by
  simp only [fallbackBoundaryAt, Bool.or_eq_true] at h ⊢
  rcases h with (h | h) | h
  · exact Or.inl (Or.inl (noiseAt_take x n q hn hq hedge h))
  · exact Or.inl (Or.inr (anchoredAt_take ("## summary".toList) x n q (by decide) hq h))
  · exact Or.inr (anchoredAt_take ("summary:".toList) x n q (by decide) hq h)

/-! ## Occurrences and the structure of the cleaner -/

theorem nonWord_of_ws (d : Char) (h : pyWhitespace d = true) : isWordChar d = false := by
  rw [pyWhitespace] at h
  simp only [Bool.or_eq_true, decide_eq_true_eq] at h
  rcases h with ((((rfl | rfl) | rfl) | rfl) | rfl) | rfl <;> decide

theorem findSubAux_eq_some (pat : PyStr) :
    ∀ (s : PyStr) (i j : Nat), findSubAux pat s i = some j →
      ∃ k, j = i + k ∧ pat <+: s.drop k ∧ ∀ m < k, ¬ pat <+: s.drop m := by
  intro s
  induction s with
  | nil =>
    intro i j h
    by_cases hp : pat.isPrefixOf ([] : PyStr)
    · rw [findSubAux, if_pos hp] at h
      injection h with h
      exact ⟨0, by omega, by simpa using List.isPrefixOf_iff_prefix.mp hp,
        fun m hm => absurd hm (Nat.not_lt_zero m)⟩
    · rw [show findSubAux pat ([] : PyStr) i = none from by rw [findSubAux, if_neg hp]] at h
      cases h
  | cons c t ih =>
    intro i j h
    by_cases hp : pat.isPrefixOf (c :: t)
    · rw [findSubAux, if_pos hp] at h
      injection h with h
      exact ⟨0, by omega, by simpa using List.isPrefixOf_iff_prefix.mp hp,
        fun m hm => absurd hm (Nat.not_lt_zero m)⟩
    · rw [show findSubAux pat (c :: t) i = findSubAux pat t (i + 1) from by
        rw [findSubAux, if_neg hp]] at h
      obtain ⟨k, hk1, hk2, hk3⟩ := ih (i + 1) j h
      refine ⟨k + 1, by omega, by simpa using hk2, ?_⟩
      intro m hm
      cases m with
      | zero =>
        simp only [List.drop_zero]
        intro hc
        exact hp (List.isPrefixOf_iff_prefix.mpr hc)
      | succ m =>
        have := hk3 m (by omega)
        simpa using this

theorem findSub_eq_some_spec (s pat : PyStr) (j : Nat) (h : findSub s pat = some j) :
    pat <+: s.drop j ∧ ∀ i < j, ¬ pat <+: s.drop i := by
  obtain ⟨k, hk1, hk2, hk3⟩ := findSubAux_eq_some pat s 0 j h
  have : k = j := by omega
  subst this
  exact ⟨hk2, hk3⟩

theorem findSub_eq_some_of (s pat : PyStr) (j : Nat) (h1 : pat <+: s.drop j)
    (h2 : ∀ i < j, ¬ pat <+: s.drop i) : findSub s pat = some j := by
  cases hf : findSub s pat with
  | none => exact absurd h1 ((findSub_eq_none_iff s pat).mp hf j)
  | some j' =>
    obtain ⟨hj1, hj2⟩ := findSub_eq_some_spec s pat j' hf
    have : j' = j := by
      rcases Nat.lt_trichotomy j' j with hlt | heq | hgt
      · exact absurd hj1 (h2 j' hlt)
      · exact heq
      · exact absurd h1 (hj2 j hgt)
    rw [this]

theorem findSub_of_isPrefix (s pat : PyStr) (h : pat <+: s) : findSub s pat = some 0 :=
  findSub_eq_some_of s pat 0 (by simpa using h)
    (fun i hi => absurd hi (Nat.not_lt_zero i))

theorem occurrence_take (x pat : PyStr) (n j : Nat) (h : pat <+: x.drop j)
    (hn : j + pat.length ≤ n) : pat <+: (x.take n).drop j := by
  rw [List.drop_take]
  have hp := List.prefix_iff_eq_take.mp h
  rw [List.prefix_iff_eq_take, List.take_take, Nat.min_eq_left (by omega)]
  exact hp

theorem get?_of_occurrence (x pat : PyStr) (j i : Nat) (hocc : pat <+: x.drop j)
    (hi : i < pat.length) : x.get? (j + i) = pat.get? i := by
  have hp := List.prefix_iff_eq_take.mp hocc
  conv_rhs => rw [hp]
  rw [get?_take_agree _ _ _ hi, get?_drop]

theorem clean_llm_output_rec_eq (raw : PyStr) (i j : Nat)
    (h1 : findSub raw REVIEW_SECTION_SUMMARY = some i)
    (h2 : findSub (raw.drop i) REVIEW_SECTION_RECOMMENDATION = some j) :
    clean_llm_output raw =
      pyStrip ((raw.drop i).take
        ((findBoundaryFrom endBoundaryAt (raw.drop i)
          (j + REVIEW_SECTION_RECOMMENDATION.length)).getD (raw.drop i).length)) := by
  simp [clean_llm_output, h1, h2]

theorem clean_llm_output_norec_eq (raw : PyStr) (i : Nat)
    (h1 : findSub raw REVIEW_SECTION_SUMMARY = some i)
    (h2 : findSub (raw.drop i) REVIEW_SECTION_RECOMMENDATION = none) :
    clean_llm_output raw = cleanWithRegexFallback raw := by
  simp [clean_llm_output, h1, h2]

theorem cleanWithRegexFallback_eq (raw : PyStr) (i : Nat)
    (h1 : findSub raw REVIEW_SECTION_SUMMARY = some i) :
    cleanWithRegexFallback raw =
      match findBoundaryFrom fallbackBoundaryAt (raw.drop i)
        REVIEW_SECTION_SUMMARY.length with
      | some e => pyStrip ((raw.drop i).take e)
      | none => pyStrip (raw.drop i) := by
  simp [cleanWithRegexFallback, h1]

/-! ## Idempotence of cleaning, path by path -/

theorem clean_idem_main (x t0 : PyStr) (hx : x = '#' :: t0)
    (hpre : REVIEW_SECTION_SUMMARY <+: x) (hnoise : noiseFree x)
    (j : Nat) (hrec : findSub x REVIEW_SECTION_RECOMMENDATION = some j) :
    clean_llm_output (clean_llm_output x) = clean_llm_output x := by
  have hreclen : (REVIEW_SECTION_RECOMMENDATION : PyStr).length = 17 := by decide
  have hsum : findSub x REVIEW_SECTION_SUMMARY = some 0 := findSub_of_isPrefix _ _ hpre
  obtain ⟨hocc, hmin⟩ := findSub_eq_some_spec x _ j hrec
  have hjlen : j + 17 ≤ x.length := by
    have h1 := hocc.length_le
    rw [List.length_drop, hreclen] at h1
    omega
  -- a uniform description of the truncation point
  obtain ⟨e, he1, he2, hbound, hmatch, hclean⟩ :
      ∃ e, j + REVIEW_SECTION_RECOMMENDATION.length ≤ e ∧ e ≤ x.length ∧
        (∀ p, j + REVIEW_SECTION_RECOMMENDATION.length ≤ p → p < e →
          endBoundaryAt x p = false) ∧
        (e < x.length → endBoundaryAt x e = true) ∧
        clean_llm_output x = pyStrip (x.take e) := by
    cases hb : findBoundaryFrom endBoundaryAt x
        (j + REVIEW_SECTION_RECOMMENDATION.length) with
    | none =>
      refine ⟨x.length, by rw [hreclen]; omega, le_refl _, ?_, by omega, ?_⟩
      · intro p hp1 hp2
        exact (findBoundaryFrom_eq_none_iff _ _ _).mp hb p hp1 hp2
      · rw [clean_llm_output_rec_eq x 0 j hsum (by rw [List.drop_zero]; exact hrec)]
        rw [List.drop_zero, hb]
        rfl
    | some m =>
      obtain ⟨hm1, hm2, hm3, hm4⟩ := (findBoundaryFrom_eq_some_iff _ _ _ _).mp hb
      refine ⟨m, hm1, by omega, hm4, fun _ => hm3, ?_⟩
      rw [clean_llm_output_rec_eq x 0 j hsum (by rw [List.drop_zero]; exact hrec)]
      rw [List.drop_zero, hb]
      rfl
  -- the cleaned text is a prefix of x, trailing whitespace removed
  obtain ⟨n, hy, hne, hnx, hws⟩ :=
    pyStrip_take_spec '#' t0 (by decide) e (by rw [hreclen] at he1; omega)
  rw [← hx] at hy hnx hws
  have hcx : clean_llm_output x = x.take n := by rw [hclean, hy]
  -- the recommendation marker survives the strip
  have hn17 : j + 17 ≤ n := by
    by_contra hlt
    have hj16 : x.get? (j + 16) = some 'n' := by
      rw [get?_of_occurrence x _ j 16 hocc (by rw [hreclen]; omega)]
      decide
    have hwsn := hws (j + 16) (by omega)
      (by rw [hreclen] at he1; exact Nat.lt_min.mpr ⟨by omega, by omega⟩) 'n' hj16
    exact absurd hwsn (by decide)
  -- the second pass finds the same markers
  have hsum_y : findSub (x.take n) REVIEW_SECTION_SUMMARY = some 0 := by
    apply findSub_of_isPrefix
    have h0 : REVIEW_SECTION_SUMMARY <+: (x.take n).drop 0 :=
      occurrence_take x _ n 0 (by rw [List.drop_zero]; exact hpre)
        (by rw [show (REVIEW_SECTION_SUMMARY : PyStr).length = 10 from by decide]; omega)
    rw [List.drop_zero] at h0
    exact h0
  have hrec_y : findSub ((x.take n).drop 0) REVIEW_SECTION_RECOMMENDATION = some j := by
    rw [List.drop_zero]
    apply findSub_eq_some_of
    · exact occurrence_take x _ n j hocc (by rw [hreclen]; omega)
    · intro i hi hcontra
      exact hmin i hi (hcontra.trans (drop_take_isPrefix x n i))
  -- no boundary exists in the cleaned text
  have hb_y : findBoundaryFrom endBoundaryAt (x.take n)
      (j + REVIEW_SECTION_RECOMMENDATION.length) = none := by
    rw [findBoundaryFrom_eq_none_iff]
    intro p hp1 hp2
    rw [List.length_take] at hp2
    have hpn : p < n := by omega
    by_contra hT
    have hT' : endBoundaryAt (x.take n) p = true := by
      cases hv : endBoundaryAt (x.take n) p with
      | true => rfl
      | false => exact absurd hv hT
    have hedge : p + 12 = n → nonWordAt x n ∨ lineStartAt x n = true := by
      intro hp12
      rcases Nat.lt_or_ge n e with hlt | hge
      · left
        intro d hd
        rcases Nat.lt_or_ge n x.length with hnx' | hnx'
        · exact nonWord_of_ws d (hws n (le_refl n) (Nat.lt_min.mpr ⟨hlt, hnx'⟩) d hd)
        · rw [List.get?_eq_none.mpr (by omega)] at hd
          cases hd
      · have hne2 : n = e := by omega
        rcases Nat.lt_or_ge e x.length with hex | hex
        · have hEB := hmatch hex
          simp only [endBoundaryAt, Bool.or_eq_true] at hEB
          rcases hEB with hA | hN
          · right
            simp only [anchoredAt, Bool.and_eq_true] at hA
            rw [hne2]
            exact hA.1
          · exact absurd hN (by rw [hnoise e hex]; simp)
        · left
          intro d hd
          rw [List.get?_eq_none.mpr (by omega)] at hd
          cases hd
    have hxT := endBoundaryAt_take x n p (by omega) hpn hedge hT'
    have := hbound p hp1 (by omega)
    rw [hxT] at this
    cases this
  -- assemble
  rw [hcx]
  rw [clean_llm_output_rec_eq (x.take n) 0 j hsum_y hrec_y]
  rw [List.drop_zero, hb_y]
  rw [show (Option.getD (none : Option Nat) (x.take n).length) = (x.take n).length
    from rfl]
  rw [List.take_length]
  calc pyStrip (x.take n) = pyStrip (pyStrip (x.take e)) := by rw [hy]
    _ = pyStrip (x.take e) := pyStrip_idem _
    _ = x.take n := hy

theorem clean_idem_fallback (x t0 : PyStr) (hx : x = '#' :: t0)
    (hpre : REVIEW_SECTION_SUMMARY <+: x) (hnoise : noiseFree x)
    (hrec : findSub x REVIEW_SECTION_RECOMMENDATION = none) :
    clean_llm_output (clean_llm_output x) = clean_llm_output x := by
  have hsumlen : (REVIEW_SECTION_SUMMARY : PyStr).length = 10 := by decide
  have hsum : findSub x REVIEW_SECTION_SUMMARY = some 0 := findSub_of_isPrefix _ _ hpre
  have hocc0 : REVIEW_SECTION_SUMMARY <+: x.drop 0 := by
    rw [List.drop_zero]
    exact hpre
  have hxlen : 10 ≤ x.length := by
    have h1 := hpre.length_le
    rw [hsumlen] at h1
    omega
  have hrec' : ∀ i, ¬ REVIEW_SECTION_RECOMMENDATION <+: x.drop i :=
    (findSub_eq_none_iff x _).mp hrec
  obtain ⟨e, he1, he2, hbound, hmatch, hclean⟩ :
      ∃ e, REVIEW_SECTION_SUMMARY.length ≤ e ∧ e ≤ x.length ∧
        (∀ p, REVIEW_SECTION_SUMMARY.length ≤ p → p < e →
          fallbackBoundaryAt x p = false) ∧
        (e < x.length → fallbackBoundaryAt x e = true) ∧
        clean_llm_output x = pyStrip (x.take e) := by
    rw [clean_llm_output_norec_eq x 0 hsum (by rw [List.drop_zero]; exact hrec)]
    rw [cleanWithRegexFallback_eq x 0 hsum, List.drop_zero]
    cases hb : findBoundaryFrom fallbackBoundaryAt x REVIEW_SECTION_SUMMARY.length with
    | none =>
      refine ⟨x.length, by rw [hsumlen]; omega, le_refl _, ?_, by omega, ?_⟩
      · intro p hp1 hp2
        exact (findBoundaryFrom_eq_none_iff _ _ _).mp hb p hp1 hp2
      · rw [List.take_length]
    | some m =>
      obtain ⟨hm1, hm2, hm3, hm4⟩ := (findBoundaryFrom_eq_some_iff _ _ _ _).mp hb
      exact ⟨m, hm1, by omega, hm4, fun _ => hm3, rfl⟩
  obtain ⟨n, hy, hne, hnx, hws⟩ :=
    pyStrip_take_spec '#' t0 (by decide) e (by rw [hsumlen] at he1; omega)
  rw [← hx] at hy hnx hws
  have hcx : clean_llm_output x = x.take n := by rw [hclean, hy]
  -- the Summary marker survives the strip
  have hn10 : 10 ≤ n := by
    by_contra hlt
    have hj9 : x.get? 9 = some 'y' := by
      have := get?_of_occurrence x _ 0 9 hocc0 (by rw [hsumlen]; omega)
      simp only [Nat.zero_add] at this
      rw [this]
      decide
    have hwsn := hws 9 (by omega)
      (by rw [hsumlen] at he1; exact Nat.lt_min.mpr ⟨by omega, by omega⟩) 'y' hj9
    exact absurd hwsn (by decide)
  have hsum_y : findSub (x.take n) REVIEW_SECTION_SUMMARY = some 0 := by
    apply findSub_of_isPrefix
    have h0 : REVIEW_SECTION_SUMMARY <+: (x.take n).drop 0 :=
      occurrence_take x _ n 0 hocc0 (by rw [hsumlen]; omega)
    rw [List.drop_zero] at h0
    exact h0
  have hrec_y : findSub ((x.take n).drop 0) REVIEW_SECTION_RECOMMENDATION = none := by
    rw [List.drop_zero, findSub_eq_none_iff]
    intro i hcontra
    exact hrec' i (hcontra.trans (drop_take_isPrefix x n i))
  have hb_y : findBoundaryFrom fallbackBoundaryAt (x.take n)
      REVIEW_SECTION_SUMMARY.length = none := by
    rw [findBoundaryFrom_eq_none_iff]
    intro p hp1 hp2
    rw [List.length_take] at hp2
    have hpn : p < n := by omega
    by_contra hT
    have hT' : fallbackBoundaryAt (x.take n) p = true := by
      cases hv : fallbackBoundaryAt (x.take n) p with
      | true => rfl
      | false => exact absurd hv hT
    have hedge : p + 12 = n → nonWordAt x n ∨ lineStartAt x n = true := by
      intro hp12
      rcases Nat.lt_or_ge n e with hlt | hge
      · left
        intro d hd
        rcases Nat.lt_or_ge n x.length with hnx' | hnx'
        · exact nonWord_of_ws d (hws n (le_refl n) (Nat.lt_min.mpr ⟨hlt, hnx'⟩) d hd)
        · rw [List.get?_eq_none.mpr (by omega)] at hd
          cases hd
      · have hne2 : n = e := by omega
        rcases Nat.lt_or_ge e x.length with hex | hex
        · have hEB := hmatch hex
          simp only [fallbackBoundaryAt, Bool.or_eq_true] at hEB
          rcases hEB with (hN | hA) | hA
          · exact absurd hN (by rw [hnoise e hex]; simp)
          · right
            simp only [anchoredAt, Bool.and_eq_true] at hA
            rw [hne2]
            exact hA.1
          · right
            simp only [anchoredAt, Bool.and_eq_true] at hA
            rw [hne2]
            exact hA.1
        · left
          intro d hd
          rw [List.get?_eq_none.mpr (by omega)] at hd
          cases hd
    have hxT := fallbackBoundaryAt_take x n p (by omega) hpn hedge hT'
    have := hbound p hp1 (by omega)
    rw [hxT] at this
    cases this
  rw [hcx]
  rw [clean_llm_output_norec_eq (x.take n) 0 hsum_y hrec_y]
  rw [cleanWithRegexFallback_eq (x.take n) 0 hsum_y, List.drop_zero, hb_y]
  calc pyStrip (x.take n) = pyStrip (pyStrip (x.take e)) := by rw [hy]
    _ = pyStrip (x.take e) := pyStrip_idem _
    _ = x.take n := hy

/-- C7: cleaning is idempotent on already-clean input — for every
string `x` that starts with the Summary marker `## Summary` and matches
no noise-boundary pattern anywhere,
`clean_llm_output (clean_llm_output x) = clean_llm_output x`. -/
theorem c7_cleaning_idempotent (x : PyStr)
    (h1 : REVIEW_SECTION_SUMMARY.isPrefixOf x = true) (h2 : noiseFree x) :
    clean_llm_output (clean_llm_output x) = clean_llm_output x := by
  have hpre : REVIEW_SECTION_SUMMARY <+: x := List.isPrefixOf_iff_prefix.mp h1
  have hx : x = '#' :: x.tail := by
    obtain ⟨w, hw⟩ := hpre
    rw [← hw]
    rfl
  cases hrec : findSub x REVIEW_SECTION_RECOMMENDATION with
  | some j => exact clean_idem_main x x.tail hx hpre h2 j hrec
  | none => exact clean_idem_fallback x x.tail hx hpre h2 hrec

theorem c7_cleaning_idempotent_witness :
    REVIEW_SECTION_SUMMARY.isPrefixOf
        ("## Summary\nGood.\n## Recommendation\nAccept".toList) = true ∧
      noiseFree ("## Summary\nGood.\n## Recommendation\nAccept".toList) ∧
      clean_llm_output (clean_llm_output
          ("## Summary\nGood.\n## Recommendation\nAccept".toList)) =
        clean_llm_output ("## Summary\nGood.\n## Recommendation\nAccept".toList) :=
  ⟨by decide, by decide,
    c7_cleaning_idempotent ("## Summary\nGood.\n## Recommendation\nAccept".toList)
      (by decide) (by decide)⟩

end PeerSight
